import Mathlib

/-!
Shallow embedding of `parse_mas_fid.py`: a pipeline that parses rows of a
MAS FID table into Company/Person entities and role relationships.

Python strings are modelled as Lean `String`s; the Unicode-aware Python
character classes (`\s`, `\d`, `str.isalpha`, `str.lower`, `str.strip`)
are modelled by their ASCII restrictions, which is exact on ASCII input.
The two regular expressions in `parse_person_field` are anchored prefix
matches with lazy character-class groups; their backtracking semantics on
these particular patterns reduces to the deterministic scans implemented
below (the lazy group `[^()]*?` can never cross a parenthesis, so the
match is forced to stop at the first parenthesis character).
-/

set_option maxHeartbeats 1000000

namespace MasFid

/-- ASCII model of Python whitespace (`str.strip`, regex `\s`). -/
def pyIsSpace (c : Char) : Bool :=
  c.toNat = 32 || c.toNat = 9 || c.toNat = 10 || c.toNat = 13 || c.toNat = 11 || c.toNat = 12

/-- ASCII letters: the regex class `[A-Za-z]` and (ASCII model of) `str.isalpha`. -/
def pyIsAlpha (c : Char) : Bool :=
  (65 ≤ c.toNat && c.toNat ≤ 90) || (97 ≤ c.toNat && c.toNat ≤ 122)

/-- ASCII digits: the regex class `\d` (ASCII model). -/
def pyIsDigit (c : Char) : Bool :=
  48 ≤ c.toNat && c.toNat ≤ 57

/-- Python `str.strip` on a character list: drop whitespace at both ends. -/
def stripL (l : List Char) : List Char :=
  ((l.dropWhile pyIsSpace).reverse.dropWhile pyIsSpace).reverse

/-- Python `str.strip`. -/
def pyStrip (s : String) : String := ⟨stripL s.data⟩

/-- Python `str.lower` on one character (ASCII model). -/
def pyToLowerChar (c : Char) : Char :=
  if 65 ≤ c.toNat && c.toNat ≤ 90 then Char.ofNat (c.toNat + 32) else c

/-- Python `str.lower` (ASCII model). -/
def pyLower (s : String) : String := ⟨s.data.map pyToLowerChar⟩

/-- Split a character list at the first occurrence of `sep`; the separator is
dropped.  If `sep` does not occur, the second component is empty.
Models Python `text.split(sep, 1)` (used only when `sep` occurs). -/
def splitFirst (l : List Char) (sep : Char) : List Char × List Char :=
  match l.span (fun ch => !(ch == sep)) with
  | (a, _ :: b) => (a, b)
  | (a, []) => (a, [])

/-- Source `_split_name_role`: split `'Name-Role'` (or `'Name, Role'`) into a
name and an optional role; `role.strip() if role else None`. -/
def split_name_role (text : String) : String × Option String :=
  if text.data.contains '-' then
    let nr := splitFirst text.data '-'
    (⟨stripL nr.1⟩, if nr.2.isEmpty then none else some ⟨stripL nr.2⟩)
  else if text.data.contains ',' then
    let nr := splitFirst text.data ','
    (⟨stripL nr.1⟩, if nr.2.isEmpty then none else some ⟨stripL nr.2⟩)
  else
    (⟨stripL text.data⟩, none)

/-- Pattern A of `parse_person_field`:
`re.match(r"(?P<name>[A-Za-z][^()]*?)\s*\((?P<role>[^)]+)\)\s*-?\s*(?P<phone>.*)", value)`
followed by the groups' post-processing (strip name and role; strip phone and
turn an empty phone into `None`).  Returns `(name, some role, phone?)`. -/
def patternA (l : List Char) : Option (String × Option String × Option String) :=
  match l with
  | [] => none
  | c :: rest =>
    if pyIsAlpha c then
      match rest.span (fun ch => !(ch == '(' || ch == ')')) with
      | (pre, '(' :: afterP) =>
        match afterP.span (fun ch => !(ch == ')')) with
        | (roleRaw, ')' :: rest2) =>
          if roleRaw.isEmpty then none
          else
            let name : String := ⟨stripL (c :: pre)⟩
            let role : String := ⟨stripL roleRaw⟩
            let r1 := rest2.dropWhile pyIsSpace
            let r2 := match r1 with
              | '-' :: t => t
              | _ => r1
            let phone := stripL (r2.dropWhile pyIsSpace)
            some (name, some role, if phone.isEmpty then none else some ⟨phone⟩)
        | _ => none
      | _ => none
    else none

/-- Pattern B of `parse_person_field`:
`re.match(r"(?P<phone>[+\d][^()]*?)\s*\((?P<inside>[^)]+)\)", value)` followed
by the groups' post-processing (strip phone, `or None`; strip inside).
Returns `(phone?, inside)`; the caller applies the alphabetic-content check. -/
def patternB (l : List Char) : Option (Option String × String) :=
  match l with
  | [] => none
  | c :: rest =>
    if c == '+' || pyIsDigit c then
      match rest.span (fun ch => !(ch == '(' || ch == ')')) with
      | (pre, '(' :: afterP) =>
        match afterP.span (fun ch => !(ch == ')')) with
        | (insideRaw, ')' :: _) =>
          if insideRaw.isEmpty then none
          else
            let phone := stripL (c :: pre)
            let inside : String := ⟨stripL insideRaw⟩
            some (if phone.isEmpty then none else some ⟨phone⟩, inside)
        | _ => none
      | _ => none
    else none

/-- Source `parse_person_field`: extract a person's name, role and phone
number from the phone field.  `none` models Python `None` (NOT_FOUND). -/
def parse_person_field (value : String) : Option (String × Option String × Option String) :=
  if value = "" then none
  else
    let v := stripL value.data
    match patternA v with
    | some r => some r
    | none =>
      match patternB v with
      | some (phone, inside) =>
        if inside.data.any pyIsAlpha then
          let nr := split_name_role inside
          some (nr.1, nr.2, phone)
        else none
      | none => none

/-- Decimal value of an ASCII digit character. -/
def dval (c : Char) : Nat := c.toNat - 48

/-- Decimal value of a digit-character list (most significant first). -/
def decValL (l : List Char) : Nat := l.foldl (fun a c => 10 * a + dval c) 0

/-- ASCII digit character of a decimal digit. -/
def digitChar (d : Nat) : Char :=
  match d with
  | 0 => '0' | 1 => '1' | 2 => '2' | 3 => '3' | 4 => '4'
  | 5 => '5' | 6 => '6' | 7 => '7' | 8 => '8' | _ => '9'

/-- Fuelled decimal rendering of a natural number (the fuel only serves
structural recursion; `natStr` supplies enough fuel). -/
def natDigitsGo : Nat → Nat → List Char
  | 0, _ => []
  | fuel + 1, n => if n < 10 then [digitChar n] else natDigitsGo fuel (n / 10) ++ [digitChar (n % 10)]

/-- Python `str(n)` for a natural number: decimal digits. -/
def natStr (n : Nat) : String := ⟨natDigitsGo (n + 1) n⟩

/-- Source `extract_year` on a character list: the leftmost four consecutive
ASCII digits, as a number (`re.search(r"(\d{4})", filename)`). -/
def extract_yearL : List Char → Option Nat
  | [] => none
  | a :: rest =>
    match rest with
    | b :: c :: d :: _ =>
      if pyIsDigit a && pyIsDigit b && pyIsDigit c && pyIsDigit d then
        some (1000 * dval a + 100 * dval b + 10 * dval c + dval d)
      else extract_yearL rest
    | _ => none

/-- Source `extract_year`: the four-digit year from the filename, if any. -/
def extract_year (filename : String) : Option Nat := extract_yearL filename.data

/-- One row of the TSV file, as produced by `csv.DictReader`: a mapping from
column name to cell value (an association list with the header's key set). -/
abbrev Row := List (String × String)

/-- Python `row.get(k, "")`. -/
def rowGet : Row → String → String
  | [], _ => ""
  | kv :: rest, k => if kv.1 = k then kv.2 else rowGet rest k

/-- An entity dict as built by `parse_mas_fid`; an attribute's value is the
growing set of distinct values, modelled as a duplicate-free list in
insertion order (Python uses `set`, whose order is irrelevant here: the set
is only queried for membership, size and its sorted enumeration). -/
structure Entity where
  entityId : String
  type : String
  canonicalName : String
  mentions : List String
  attributes : List (String × List String)
deriving DecidableEq

/-- A relationship dict as appended by `parse_mas_fid`. -/
structure Relationship where
  sourceEntityId : String
  targetEntityId : String
  role : Option String
  effectiveDate : Option String
deriving DecidableEq

/-- The mutable state of the row loop in `parse_mas_fid`: the two
insertion-ordered entity dicts, the relationship list, and the dedup key set
(modelled as a duplicate-free list; only membership is queried). -/
structure PState where
  companies : List (String × Entity)
  persons : List (String × Entity)
  relationships : List Relationship
  relation_keys : List (String × String × String)
deriving DecidableEq

/-- Dict lookup in an insertion-ordered entity dict. -/
def lookupA : List (String × Entity) → String → Option Entity
  | [], _ => none
  | p :: rest, k => if p.1 = k then some p.2 else lookupA rest k

/-- The fresh company dict of source lines 67-73. -/
def newCompany (n : Nat) (name : String) : Entity :=
  { entityId := "COMPANY_" ++ natStr n, type := "Company", canonicalName := name,
    mentions := [name], attributes := [] }

/-- The fresh person dict of source lines 92-98. -/
def newPerson (n : Nat) (name : String) : Entity :=
  { entityId := "PERSON_" ++ natStr n, type := "Person", canonicalName := name,
    mentions := [name], attributes := [] }

/-- Add a value to a named attribute's set
(`attrs.setdefault(key, set()).add(value)`). -/
def insertVal : List (String × List String) → String → String → List (String × List String)
  | [], k, v => [(k, [v])]
  | (k0, vs) :: rest, k, v =>
    if k0 = k then (k0, if v ∈ vs then vs else vs ++ [v]) :: rest
    else (k0, vs) :: insertVal rest k v

/-- Add a value to an entity's named attribute set. -/
def addAttr (e : Entity) (k v : String) : Entity :=
  { e with attributes := insertVal e.attributes k v }

/-- The attribute loop of source lines 78-85: for every column other than
the organisation name whose trimmed value is non-empty, add the trimmed
value to the company's attribute set. -/
def addRowAttrs (e : Entity) (row : Row) : Entity :=
  row.foldl
    (fun c kv =>
      if kv.1 = "Organisation Name" then c
      else if pyStrip kv.2 = "" then c
      else addAttr c kv.1 (pyStrip kv.2)) e

/-- Create the company on first sight (source lines 66-74). -/
def ensureCompany (m : List (String × Entity)) (name : String) : List (String × Entity) :=
  if (lookupA m name).isSome then m else m ++ [(name, newCompany (m.length + 1) name)]

/-- Create the person on first sight (source lines 91-98). -/
def ensurePerson (m : List (String × Entity)) (name : String) : List (String × Entity) :=
  if (lookupA m name).isSome then m else m ++ [(name, newPerson (m.length + 1) name)]

/-- Update the entity stored under a key of an entity dict. -/
def updateA (m : List (String × Entity)) (k : String) (f : Entity → Entity) :
    List (String × Entity) :=
  m.map (fun p => if p.1 = k then (p.1, f p.2) else p)

/-- The stored relationship role (`role.lower() if role else None`): Python's
truthiness sends both `None` and `""` to `None`. -/
def roleStore : Option String → Option String
  | none => none
  | some r => if r = "" then none else some (pyLower r)

/-- The relationship dict of source lines 107-112. -/
def mkRel (pid cid : String) (role : Option String) : Relationship :=
  { sourceEntityId := pid, targetEntityId := cid, role := roleStore role, effectiveDate := none }

/-- The stored relationship determined by a dedup key
`(person_id, company_id, role or "")`. -/
def keyToRel (key : String × String × String) : Relationship :=
  { sourceEntityId := key.1, targetEntityId := key.2.1,
    role := if key.2.2 = "" then none else some (pyLower key.2.2), effectiveDate := none }

/-- The trimmed organisation name of a row (source line 62). -/
def orgOf (row : Row) : String := pyStrip (rowGet row "Organisation Name")

/-- One iteration of the row loop of `parse_mas_fid` (source lines 61-113). -/
def stepRow (st : PState) (row : Row) : PState :=
  if orgOf row = "" then st
  else
    let company_name := orgOf row
    let cs0 := ensureCompany st.companies company_name
    let cs := updateA cs0 company_name (fun c => addRowAttrs c row)
    let cid := ((lookupA cs company_name).map Entity.entityId).getD ""
    match parse_person_field (rowGet row "Phone Number") with
    | none => { st with companies := cs }
    | some (pname, role, phone) =>
      let ps0 := ensurePerson st.persons pname
      let pid := ((lookupA ps0 pname).map Entity.entityId).getD ""
      let ps := match phone with
        | none => ps0
        | some ph => updateA ps0 pname (fun p => addAttr p "Phone Number" ph)
      let key : String × String × String := (pid, cid, role.getD "")
      if key ∈ st.relation_keys then { st with companies := cs, persons := ps }
      else
        { companies := cs, persons := ps,
          relationships := st.relationships ++ [mkRel pid cid role],
          relation_keys := st.relation_keys ++ [key] }

/-- The state before the first row. -/
def initState : PState := ⟨[], [], [], []⟩

/-- The row loop of `parse_mas_fid` over the file's row sequence. -/
def runRows (rows : List Row) : PState := rows.foldl stepRow initState

/-- Lexicographic code-point ordering on character lists, modelling Python's
string comparison (used by `sorted`). -/
def lexLe : List Char → List Char → Bool
  | [], _ => true
  | _ :: _, [] => false
  | a :: as, b :: bs => if a < b then true else if b < a then false else lexLe as bs

/-- Python string ordering as a proposition. -/
def sLe (a b : String) : Prop := lexLe a.data b.data = true

/-- Insert a string into a sorted list of strings. -/
def insertSorted (s : String) : List String → List String
  | [] => [s]
  | t :: ts => if lexLe s.data t.data then s :: t :: ts else t :: insertSorted s ts

/-- Python `sorted` on a list of strings. -/
def sortStrs : List String → List String
  | [] => []
  | s :: ss => insertSorted s (sortStrs ss)

/-- A finalized attribute value: a bare scalar for a singleton set, a sorted
sequence otherwise (source `finalize`). -/
inductive AttrVal where
  | scalar : String → AttrVal
  | multi : List String → AttrVal
deriving DecidableEq

/-- Source `finalize` on one attribute's value set. -/
def finalizeVal (vs : List String) : AttrVal :=
  match vs with
  | [v] => AttrVal.scalar v
  | _ => AttrVal.multi (sortStrs vs)

/-- An entity after `finalize`. -/
structure FEntity where
  entityId : String
  type : String
  canonicalName : String
  mentions : List String
  attributes : List (String × AttrVal)
deriving DecidableEq

/-- Source `finalize`: collapse every attribute's value set. -/
def finalizeEntity (e : Entity) : FEntity :=
  { entityId := e.entityId, type := e.type, canonicalName := e.canonicalName,
    mentions := e.mentions,
    attributes := e.attributes.map (fun kv => (kv.1, finalizeVal kv.2)) }

/-- Source `parse_mas_fid` on the file's row sequence: the finalized
companies (insertion order) followed by the finalized persons, plus the
relationship list. -/
def parse_mas_fid (rows : List Row) : List FEntity × List Relationship :=
  let st := runRows rows
  (st.companies.map (fun p => finalizeEntity p.2) ++ st.persons.map (fun p => finalizeEntity p.2),
    st.relationships)

/-- The JSON document assembled by `build_output`. -/
structure Output where
  reportYear : Option Nat
  entities : List FEntity
  relationships : List Relationship
deriving DecidableEq

/-- Source `build_output`: the report year from the file name, the entities
and relationships from the file's rows. -/
def build_output (file_path : String) (rows : List Row) : Output :=
  { reportYear := extract_year file_path,
    entities := (parse_mas_fid rows).1,
    relationships := (parse_mas_fid rows).2 }

/-- The stored triple of a relationship: source, target, and role-or-empty. -/
def storedKey (rel : Relationship) : String × String × String :=
  (rel.sourceEntityId, rel.targetEntityId, rel.role.getD "")

/-- Two rows for the same company and person whose roles differ only in
case ("CEO" vs "ceo"). -/
def rowsC1 : List Row :=
  [[("Organisation Name", "Acme"), ("Phone Number", "John (CEO) -123")],
   [("Organisation Name", "Acme"), ("Phone Number", "John (ceo) -123")]]

/-- Two single-column rows naming distinct organisations. -/
def rowsC3 : List Row :=
  [[("Organisation Name", "Acme")], [("Organisation Name", "Beta")]]

/-- The canonical company name a row contributes, if any. -/
def orgNameOf (row : Row) : Option String :=
  if orgOf row = "" then none else some (orgOf row)

/-- The canonical person name a row contributes, if any: rows with a blank
organisation name are skipped before the phone field is inspected. -/
def personNameOf (row : Row) : Option String :=
  if orgOf row = "" then none
  else (parse_person_field (rowGet row "Phone Number")).map (fun r => r.1)

/-- Accumulate a canonical name in first-seen order. -/
def seenStep (acc : List String) (o : Option String) : List String :=
  match o with
  | none => acc
  | some n => if n ∈ acc then acc else acc ++ [n]

/-- The distinct canonical names of a row sequence, in first-seen order. -/
def firstSeenList (l : List (Option String)) : List String := l.foldl seenStep []

/-- The entity identifiers `pref ++ "1"`, ..., `pref ++ toString n`. -/
def idsFor (pref : String) (n : Nat) : List String :=
  (List.range n).map (fun i => pref ++ natStr (i + 1))

/-- Membership of a value in a named attribute's value set. -/
def memVal (attrs : List (String × List String)) (k v : String) : Prop :=
  ∃ vs, (k, vs) ∈ attrs ∧ v ∈ vs

/-- The value list stored at the first occurrence of a key (the list entry
`insertVal` updates, mirroring dict access). -/
def firstVal : List (String × List String) → String → Option (List String)
  | [], _ => none
  | p :: rest, k => if p.1 = k then some p.2 else firstVal rest k

/-- The key's first entry exists and already contains the value. -/
def memF (m : List (String × List String)) (k v : String) : Prop :=
  ∃ vs, firstVal m k = some vs ∧ v ∈ vs

/-- Membership of a value in an optional entity's named attribute set. -/
def memValOpt (o : Option Entity) (k v : String) : Prop :=
  ∃ e, o = some e ∧ memVal e.attributes k v

/-- The company identifier a non-skipped row's relationship uses (the value
of the binding `cid` in `stepRow`). -/
def stepCid (st : PState) (row : Row) : String :=
  ((lookupA (updateA (ensureCompany st.companies (orgOf row)) (orgOf row)
      (fun c => addRowAttrs c row)) (orgOf row)).map Entity.entityId).getD ""

/-- The person identifier a parsed row's relationship uses (the value of the
binding `pid` in `stepRow`). -/
def stepPid (st : PState) (pname : String) : String :=
  ((lookupA (ensurePerson st.persons pname) pname).map Entity.entityId).getD ""

/-- The dedup key a parsed row produces (the value of the binding `key` in
`stepRow`). -/
def stepKey (st : PState) (row : Row) (pname : String) (role : Option String) :
    String × String × String :=
  (stepPid st pname, stepCid st row, role.getD "")

/-- Four consecutive ASCII digits occur at position `i` of the list. -/
def fourDigitsAt (l : List Char) (i : Nat) : Prop :=
  ((l.drop i).take 4).length = 4 ∧ ((l.drop i).take 4).all pyIsDigit = true

/-- The decimal value of the four characters at position `i`. -/
def runVal (l : List Char) (i : Nat) : Nat := decValL ((l.drop i).take 4)

end MasFid

namespace MasFid

/-- C4: `parse_person_field` on the exact input
`"Oleg Leonov (CEO-designate) -6221 9876"` returns name "Oleg Leonov", role
"CEO-designate" and phone "6221 9876", and this match is produced by Pattern
A; on `"+65 6221 9876 (Tan Wee-Head of Compliance)"` it returns name
"Tan Wee", role "Head of Compliance" and phone "+65 6221 9876", produced by
Pattern B (Pattern A fails) with the hyphen split of the parenthetical. -/
theorem C4_parse_examples :
    parse_person_field "Oleg Leonov (CEO-designate) -6221 9876"
        = some ("Oleg Leonov", some "CEO-designate", some "6221 9876")
    ∧ patternA ("Oleg Leonov (CEO-designate) -6221 9876").data
        = some ("Oleg Leonov", some "CEO-designate", some "6221 9876")
    ∧ parse_person_field "+65 6221 9876 (Tan Wee-Head of Compliance)"
        = some ("Tan Wee", some "Head of Compliance", some "+65 6221 9876")
    ∧ patternA ("+65 6221 9876 (Tan Wee-Head of Compliance)").data = none
    ∧ patternB ("+65 6221 9876 (Tan Wee-Head of Compliance)").data
        = some (some "+65 6221 9876", "Tan Wee-Head of Compliance")
    ∧ split_name_role "Tan Wee-Head of Compliance"
        = ("Tan Wee", some "Head of Compliance") := by
  refine ⟨by decide, by decide, by decide, by decide, by decide, by decide⟩

/-- C9: on the input `"John (   ) -123"` (alphabetic head, whitespace-only
parenthetical, trailing phone) `parse_person_field` succeeds via Pattern A
and returns the role as the literal empty string, not as `none`. -/
theorem C9_empty_string_role :
    parse_person_field "John (   ) -123" = some ("John", some "", some "123")
    ∧ (some "" : Option String) ≠ none := by
  refine ⟨by decide, by decide⟩

/-- C1 fails as stated: on two rows for the same company and person whose
roles differ only in case, the dedup key (computed before lower-casing)
differs, so two relationships are appended whose stored triples
(source, target, lower-cased role-or-empty) are identical. -/
theorem C1_counterexample :
    ¬ (List.Pairwise (fun a b => storedKey a ≠ storedKey b) (parse_mas_fid rowsC1).2) := by
  decide

/-- C7: a row whose organisation-name column is absent or blank after trim
leaves the pipeline state unchanged: no entity, attribute or relationship is
recorded, and deleting the row from the sequence leaves the output of
`parse_mas_fid` unchanged. -/
theorem C7_blank_org_skipped (st : PState) (row : Row) (h : orgOf row = "") :
    stepRow st row = st
    ∧ ∀ rows1 rows2 : List Row,
        parse_mas_fid (rows1 ++ row :: rows2) = parse_mas_fid (rows1 ++ rows2) := by
  have hstep : ∀ st0 : PState, stepRow st0 row = st0 := by
    intro st0
    unfold stepRow
    rw [h]
    simp
  refine ⟨hstep st, ?_⟩
  intro rows1 rows2
  have hrun : runRows (rows1 ++ row :: rows2) = runRows (rows1 ++ rows2) := by
    unfold runRows
    rw [List.foldl_append, List.foldl_append, List.foldl_cons, hstep]
  unfold parse_mas_fid
  rw [hrun]

/-- Closed instance of C7 at a concrete blank-organisation row. -/
theorem C7_witness :
    stepRow initState [("Organisation Name", "  "), ("Phone Number", "Jane (CFO) -99")]
      = initState := by
  exact (C7_blank_org_skipped initState _ (by decide)).1

/-- Stripping a whitespace-only character list yields the empty list. -/
theorem stripL_eq_nil_of_space (l : List Char) (h : ∀ c ∈ l, pyIsSpace c = true) :
    stripL l = [] := by
  unfold stripL
  rw [List.dropWhile_eq_nil_iff.mpr h]
  rfl

/-- A head character accepted by Pattern B (a plus sign or a digit) is not a
letter, so Pattern A rejects any input Pattern B accepts. -/
theorem patternA_none_of_patternB (l : List Char) (x : Option String × String)
    (h : patternB l = some x) : patternA l = none := by
  match l with
  | [] => rfl
  | c :: rest =>
    have hc : (c == '+' || pyIsDigit c) = true := by
      by_contra hcon
      rw [Bool.not_eq_true] at hcon
      simp [patternB, hcon] at h
    have halpha : pyIsAlpha c = false := by
      rcases Bool.or_eq_true _ _ |>.mp hc with h1 | h2
      · have hp : c = '+' := by
          have := of_decide_eq_true h1
          exact this
        subst hp
        decide
      · have hne : ¬ (pyIsAlpha c = true) := by
          simp only [pyIsAlpha, pyIsDigit, Bool.or_eq_true, Bool.and_eq_true,
            decide_eq_true_eq] at h2 ⊢
          omega
        exact Bool.eq_false_iff.mpr hne
    simp [patternA, halpha]

/-- C5: `parse_person_field` returns the NOT_FOUND signal (`none`) for every
empty or whitespace-only input, and for every input whose stripped text
matches Pattern B's shape with a parenthetical containing no alphabetic
character; in both cases no name, role or phone is produced. -/
theorem C5_not_found :
    (∀ s : String, (∀ c ∈ s.data, pyIsSpace c = true) → parse_person_field s = none)
    ∧ (∀ (s : String) (ph : Option String) (inside : String),
        patternB (stripL s.data) = some (ph, inside) →
        inside.data.any pyIsAlpha = false →
        parse_person_field s = none) := by
  constructor
  · intro s h
    by_cases hs : s = ""
    · rw [hs]; rfl
    · unfold parse_person_field
      rw [if_neg hs, stripL_eq_nil_of_space _ h]
      rfl
  · intro s ph inside hB hal
    have hs : s ≠ "" := by
      intro he
      subst he
      have : patternB (stripL ("" : String).data) = none := by decide
      rw [this] at hB
      exact Option.noConfusion hB
    have hA := patternA_none_of_patternB _ _ hB
    unfold parse_person_field
    rw [if_neg hs]
    simp only [hA, hB, hal]
    rfl

/-- Closed instance of C5: a whitespace-only input and a numeric-parenthetical
input both map to `none`. -/
theorem C5_witness :
    parse_person_field "  " = none ∧ parse_person_field "+65 6221 1234 (10)" = none := by
  refine ⟨C5_not_found.1 "  " (by decide),
    C5_not_found.2 "+65 6221 1234 (10)" (some "+65 6221 1234") "10" (by decide) (by decide)⟩

/-- A list shorter than four characters has no run of four digits. -/
theorem not_fourDigitsAt_short (l : List Char) (i : Nat) (h : l.length < 4) :
    ¬ fourDigitsAt l i := by
  intro hf
  have hlen := hf.1
  rw [List.length_take, List.length_drop] at hlen
  omega

/-- Shifting a digit-run position across a cons cell. -/
theorem fourDigitsAt_succ_cons (a : Char) (l : List Char) (i : Nat) :
    fourDigitsAt (a :: l) (i + 1) ↔ fourDigitsAt l i := by
  unfold fourDigitsAt
  rw [List.drop_succ_cons]

/-- Shifting the run value across a cons cell. -/
theorem runVal_succ_cons (a : Char) (l : List Char) (i : Nat) :
    runVal (a :: l) (i + 1) = runVal l i := by
  unfold runVal
  rw [List.drop_succ_cons]

/-- A digit run at position zero is the conjunction of the four head digit
tests. -/
theorem fourDigitsAt_zero (a b c d : Char) (t : List Char) :
    fourDigitsAt (a :: b :: c :: d :: t) 0
      ↔ (pyIsDigit a && pyIsDigit b && pyIsDigit c && pyIsDigit d) = true := by
  unfold fourDigitsAt
  simp [List.all_cons, Bool.and_eq_true, and_assoc]

/-- Splitting a universally quantified position statement at zero. -/
theorem forall_pos_split (P : Nat → Prop) :
    (∀ i, ¬ P i) ↔ ¬ P 0 ∧ ∀ i, ¬ P (i + 1) := by
  constructor
  · intro h
    exact ⟨h 0, fun i => h (i + 1)⟩
  · rintro ⟨h0, hs⟩ i
    match i with
    | 0 => exact h0
    | j + 1 => exact hs j

/-- Equation of `extract_yearL` on a list with at least four characters. -/
theorem extract_yearL_eq4 (a b c d : Char) (t : List Char) :
    extract_yearL (a :: b :: c :: d :: t)
      = if (pyIsDigit a && pyIsDigit b && pyIsDigit c && pyIsDigit d) = true
          then some (1000 * dval a + 100 * dval b + 10 * dval c + dval d)
          else extract_yearL (b :: c :: d :: t) := rfl

/-- `extract_yearL` fails exactly when no position carries four consecutive
digits. -/
theorem extract_yearL_none_iff (l : List Char) :
    extract_yearL l = none ↔ ∀ i, ¬ fourDigitsAt l i := by
  induction l with
  | nil =>
    simp only [extract_yearL, true_iff]
    intro i
    exact not_fourDigitsAt_short _ _ (by simp)
  | cons a rest IH =>
    rcases rest with _ | ⟨b, rest1⟩
    · simp only [extract_yearL, true_iff]
      intro i
      exact not_fourDigitsAt_short _ _ (by simp)
    rcases rest1 with _ | ⟨c, rest2⟩
    · simp only [extract_yearL, true_iff]
      intro i
      exact not_fourDigitsAt_short _ _ (by simp)
    rcases rest2 with _ | ⟨d, t⟩
    · simp only [extract_yearL, true_iff]
      intro i
      exact not_fourDigitsAt_short _ _ (by simp)
    rw [extract_yearL_eq4]
    by_cases hd : (pyIsDigit a && pyIsDigit b && pyIsDigit c && pyIsDigit d) = true
    · rw [if_pos hd]
      constructor
      · intro hcon
        exact Option.noConfusion hcon
      · intro hall
        exact absurd ((fourDigitsAt_zero a b c d t).mpr hd) (hall 0)
    · rw [if_neg hd, IH]
      constructor
      · intro h i
        match i with
        | 0 => exact fun h0 => hd ((fourDigitsAt_zero a b c d t).mp h0)
        | j + 1 =>
          rw [fourDigitsAt_succ_cons]
          exact h j
      · intro h i
        have hi := h (i + 1)
        rw [fourDigitsAt_succ_cons] at hi
        exact hi

/-- A successful `extract_yearL` returns the value of the leftmost run of
four consecutive digits. -/
theorem extract_yearL_some (l : List Char) (y : Nat) (h : extract_yearL l = some y) :
    ∃ i, fourDigitsAt l i ∧ y = runVal l i ∧ ∀ j, j < i → ¬ fourDigitsAt l j := by
  induction l generalizing y with
  | nil => exact Option.noConfusion h
  | cons a rest IH =>
    rcases rest with _ | ⟨b, rest1⟩
    · exact Option.noConfusion h
    rcases rest1 with _ | ⟨c, rest2⟩
    · exact Option.noConfusion h
    rcases rest2 with _ | ⟨d, t⟩
    · exact Option.noConfusion h
    rw [extract_yearL_eq4] at h
    by_cases hd : (pyIsDigit a && pyIsDigit b && pyIsDigit c && pyIsDigit d) = true
    · rw [if_pos hd] at h
      refine ⟨0, (fourDigitsAt_zero a b c d t).mpr hd, ?_, ?_⟩
      · have hy : y = 1000 * dval a + 100 * dval b + 10 * dval c + dval d :=
          (Option.some.injEq _ _ ▸ h).symm
        rw [hy]
        unfold runVal decValL
        simp only [List.drop_zero, List.take_succ_cons, List.take_zero, List.foldl_cons,
          List.foldl_nil]
        ring
      · intro j hj
        omega
    · rw [if_neg hd] at h
      obtain ⟨i, hfour, hval, hmin⟩ := IH y h
      refine ⟨i + 1, (fourDigitsAt_succ_cons a _ i).mpr hfour, ?_, ?_⟩
      · rw [runVal_succ_cons]
        exact hval
      · intro j hj
        match j with
        | 0 => exact fun h0 => hd ((fourDigitsAt_zero a b c d t).mp h0)
        | j1 + 1 =>
          rw [fourDigitsAt_succ_cons]
          exact hmin j1 (by omega)

/-- C8: `extract_year` returns the integer value of the first run of four
consecutive digits anywhere in the filename (or `none` when no such run
exists), and for fixed row content the filename influences only the
`reportYear` field of `build_output`, never the entities or relationships. -/
theorem C8_report_year :
    (∀ (f1 f2 : String) (rows : List Row),
        (build_output f1 rows).entities = (build_output f2 rows).entities
        ∧ (build_output f1 rows).relationships = (build_output f2 rows).relationships)
    ∧ (∀ s : String, extract_year s = none ↔ ∀ i, ¬ fourDigitsAt s.data i)
    ∧ (∀ (s : String) (y : Nat), extract_year s = some y →
        ∃ i, fourDigitsAt s.data i ∧ y = runVal s.data i
          ∧ ∀ j, j < i → ¬ fourDigitsAt s.data j) := by
  refine ⟨fun f1 f2 rows => ⟨rfl, rfl⟩, fun s => extract_yearL_none_iff s.data,
    fun s y h => extract_yearL_some s.data y h⟩

/-- The decimal value of a digit character below ten. -/
theorem dval_digitChar : ∀ d < 10, dval (digitChar d) = d := by decide

/-- Appending one digit multiplies the value by ten and adds the digit. -/
theorem decValL_append_digit (l : List Char) (c : Char) :
    decValL (l ++ [c]) = 10 * decValL l + dval c := by
  unfold decValL
  rw [List.foldl_append]
  rfl

/-- With enough fuel, the decimal rendering evaluates back to its input. -/
theorem decValL_natDigitsGo (fuel : Nat) :
    ∀ n : Nat, n < 10 ^ fuel → decValL (natDigitsGo fuel n) = n := by
  induction fuel with
  | zero =>
    intro n h
    have hz : n = 0 := by omega
    subst hz
    rfl
  | succ fuel IH =>
    intro n h
    unfold natDigitsGo
    by_cases h10 : n < 10
    · rw [if_pos h10]
      have : decValL [digitChar n] = dval (digitChar n) := by
        unfold decValL
        simp [List.foldl]
      rw [this, dval_digitChar n h10]
    · rw [if_neg h10, decValL_append_digit]
      have hdiv : n / 10 < 10 ^ fuel := by
        rw [Nat.div_lt_iff_lt_mul (by norm_num)]
        calc n < 10 ^ (fuel + 1) := h
        _ = 10 ^ fuel * 10 := by rw [pow_succ]
      rw [IH (n / 10) hdiv, dval_digitChar (n % 10) (Nat.mod_lt _ (by norm_num))]
      omega

/-- Every natural number fits the fuel `natStr` supplies. -/
theorem lt_ten_pow_succ (n : Nat) : n < 10 ^ (n + 1) := by
  have h1 : n < 10 ^ n := Nat.lt_pow_self (by norm_num) n
  have h2 : 10 ^ n ≤ 10 ^ (n + 1) := Nat.pow_le_pow_right (by norm_num) (by omega)
  omega

/-- The decimal rendering of a natural number is injective. -/
theorem natStr_injective (a b : Nat) (h : natStr a = natStr b) : a = b := by
  have hdata : natDigitsGo (a + 1) a = natDigitsGo (b + 1) b := by
    have := congrArg String.data h
    exact this
  have ha := decValL_natDigitsGo (a + 1) a (lt_ten_pow_succ a)
  have hb := decValL_natDigitsGo (b + 1) b (lt_ten_pow_succ b)
  rw [← ha, ← hb, hdata]

/-- The character list of a literally constructed string. -/
theorem string_mk_data (l : List Char) : (String.mk l).data = l := rfl

/-- Identifiers built from a common prefix and distinct ordinals differ. -/
theorem pref_natStr_injective (pref : String) (a b : Nat)
    (h : pref ++ natStr a = pref ++ natStr b) : a = b := by
  apply natStr_injective
  have hd := congrArg String.data h
  rw [String.data_append, String.data_append] at hd
  have hl : (natStr a).data = (natStr b).data := List.append_cancel_left hd
  unfold natStr at hl
  rw [string_mk_data, string_mk_data] at hl
  unfold natStr
  rw [hl]

/-- The identifier list with one more entity appended. -/
theorem idsFor_succ (pref : String) (n : Nat) :
    idsFor pref (n + 1) = idsFor pref n ++ [pref ++ natStr (n + 1)] := by
  unfold idsFor
  rw [List.range_succ, List.map_append]
  rfl

/-- The identifier lists are duplicate-free. -/
theorem idsFor_nodup (pref : String) (n : Nat) : (idsFor pref n).Nodup := by
  unfold idsFor
  refine List.Nodup.map ?_ (List.nodup_range n)
  intro a b hab
  have := pref_natStr_injective pref (a + 1) (b + 1) hab
  omega

/-- Dict lookup succeeds exactly on the stored keys. -/
theorem lookupA_isSome_iff (m : List (String × Entity)) (k : String) :
    (lookupA m k).isSome = true ↔ k ∈ m.map (fun p => p.1) := by
  induction m with
  | nil => simp [lookupA]
  | cons p rest IH =>
    unfold lookupA
    by_cases hp : p.1 = k
    · simp [hp]
    · rw [if_neg hp]
      simp only [List.map_cons, List.mem_cons]
      rw [IH]
      constructor
      · intro h
        exact Or.inr h
      · rintro (h | h)
        · exact absurd h.symm hp
        · exact h

/-- Dict lookup fails exactly on absent keys. -/
theorem lookupA_eq_none_iff (m : List (String × Entity)) (k : String) :
    lookupA m k = none ↔ k ∉ m.map (fun p => p.1) := by
  rw [← lookupA_isSome_iff]
  cases lookupA m k <;> simp

/-- A successful dict lookup returns a stored binding. -/
theorem lookupA_mem (m : List (String × Entity)) (k : String) (e : Entity)
    (h : lookupA m k = some e) : (k, e) ∈ m := by
  induction m with
  | nil => exact Option.noConfusion h
  | cons p rest IH =>
    unfold lookupA at h
    by_cases hp : p.1 = k
    · rw [if_pos hp] at h
      have he : e = p.2 := ((Option.some.injEq _ _).mp h).symm
      subst he
      rw [← hp]
      exact Prod.mk.eta ▸ List.mem_cons_self p rest
    · rw [if_neg hp] at h
      exact List.mem_cons_of_mem p (IH h)

/-- Lookup in a concatenation, first part failing. -/
theorem lookupA_append_of_none (m1 m2 : List (String × Entity)) (k : String)
    (h : lookupA m1 k = none) : lookupA (m1 ++ m2) k = lookupA m2 k := by
  induction m1 with
  | nil => rfl
  | cons p rest IH =>
    rw [List.cons_append]
    simp only [lookupA] at h ⊢
    by_cases hp : p.1 = k
    · rw [if_pos hp] at h
      exact Option.noConfusion h
    · rw [if_neg hp] at h ⊢
      exact IH h

/-- Lookup in a concatenation, first part succeeding. -/
theorem lookupA_append_of_some (m1 m2 : List (String × Entity)) (k : String) (e : Entity)
    (h : lookupA m1 k = some e) : lookupA (m1 ++ m2) k = some e := by
  induction m1 with
  | nil => exact Option.noConfusion h
  | cons p rest IH =>
    rw [List.cons_append]
    simp only [lookupA] at h ⊢
    by_cases hp : p.1 = k
    · rw [if_pos hp] at h ⊢
      exact h
    · rw [if_neg hp] at h ⊢
      exact IH h

/-- Updating one key leaves the key list untouched. -/
theorem updateA_map_fst (m : List (String × Entity)) (k : String) (f : Entity → Entity) :
    (updateA m k f).map (fun p => p.1) = m.map (fun p => p.1) := by
  induction m with
  | nil => rfl
  | cons p rest IH =>
    unfold updateA at IH ⊢
    simp only [List.map_cons]
    rw [IH]
    by_cases hp : p.1 = k
    · rw [if_pos hp]
    · rw [if_neg hp]

/-- Updating one key preserves any projection the update preserves. -/
theorem updateA_map_proj {α : Type} (m : List (String × Entity)) (k : String)
    (f : Entity → Entity) (g : Entity → α) (hg : ∀ e, g (f e) = g e) :
    (updateA m k f).map (fun p => g p.2) = m.map (fun p => g p.2) := by
  induction m with
  | nil => rfl
  | cons p rest IH =>
    unfold updateA at IH ⊢
    simp only [List.map_cons]
    rw [IH]
    by_cases hp : p.1 = k
    · rw [if_pos hp]
      simp only [hg]
    · rw [if_neg hp]

/-- Lookup of the updated key. -/
theorem lookupA_updateA_self (m : List (String × Entity)) (k : String) (f : Entity → Entity) :
    lookupA (updateA m k f) k = (lookupA m k).map f := by
  induction m with
  | nil => rfl
  | cons p rest IH =>
    unfold updateA at IH ⊢
    rw [List.map_cons]
    by_cases hp : p.1 = k
    · rw [if_pos hp]
      simp only [lookupA]
      have h1 : ((p.1, f p.2) : String × Entity).1 = k := hp
      rw [if_pos h1, if_pos hp]
      rfl
    · rw [if_neg hp]
      simp only [lookupA]
      rw [if_neg hp, if_neg hp]
      exact IH

/-- Lookup of a key other than the updated one. -/
theorem lookupA_updateA_ne (m : List (String × Entity)) (k k2 : String) (f : Entity → Entity)
    (h : k2 ≠ k) : lookupA (updateA m k f) k2 = lookupA m k2 := by
  induction m with
  | nil => rfl
  | cons p rest IH =>
    unfold updateA at IH ⊢
    rw [List.map_cons]
    by_cases hp : p.1 = k
    · have hne : ¬ (p.1 = k2) := by
        intro hc
        exact h (hc ▸ hp)
      rw [if_pos hp]
      simp only [lookupA]
      have h1 : ¬ (((p.1, f p.2) : String × Entity).1 = k2) := hne
      rw [if_neg h1, if_neg hne]
      exact IH
    · rw [if_neg hp]
      simp only [lookupA]
      by_cases hq : p.1 = k2
      · rw [if_pos hq, if_pos hq]
      · rw [if_neg hq, if_neg hq]
        exact IH

/-- The attribute loop changes only the attribute mapping: any projection
unaffected by `addAttr` is preserved. -/
theorem addRowAttrs_proj {α : Type} (g : Entity → α)
    (hg : ∀ e k v, g (addAttr e k v) = g e) (row : Row) :
    ∀ e, g (addRowAttrs e row) = g e := by
  induction row with
  | nil => intro e; rfl
  | cons kv rest IH =>
    intro e
    unfold addRowAttrs at IH ⊢
    rw [List.foldl_cons, IH _]
    by_cases h1 : kv.1 = "Organisation Name"
    · rw [if_pos h1]
    · rw [if_neg h1]
      by_cases h2 : pyStrip kv.2 = ""
      · rw [if_pos h2]
      · rw [if_neg h2]
        exact hg e kv.1 (pyStrip kv.2)

/-- The attribute loop preserves the entity identifier. -/
theorem addRowAttrs_entityId (row : Row) (e : Entity) :
    (addRowAttrs e row).entityId = e.entityId :=
  addRowAttrs_proj (fun e => e.entityId) (fun _ _ _ => rfl) row e

/-- The attribute loop preserves the entity type. -/
theorem addRowAttrs_type (row : Row) (e : Entity) :
    (addRowAttrs e row).type = e.type :=
  addRowAttrs_proj (fun e => e.type) (fun _ _ _ => rfl) row e

/-- The attribute loop preserves the canonical name. -/
theorem addRowAttrs_canonicalName (row : Row) (e : Entity) :
    (addRowAttrs e row).canonicalName = e.canonicalName :=
  addRowAttrs_proj (fun e => e.canonicalName) (fun _ _ _ => rfl) row e

/-- Looking up the ensured company key. -/
theorem lookupA_ensureCompany_self (m : List (String × Entity)) (name : String) :
    lookupA (ensureCompany m name) name
      = some ((lookupA m name).getD (newCompany (m.length + 1) name)) := by
  unfold ensureCompany
  by_cases hs : (lookupA m name).isSome = true
  · rw [if_pos hs]
    obtain ⟨e, he⟩ := Option.isSome_iff_exists.mp hs
    rw [he]
    rfl
  · rw [if_neg hs]
    have hn : lookupA m name = none := by
      cases hl : lookupA m name
      · rfl
      · rw [hl] at hs
        simp at hs
    rw [lookupA_append_of_none _ _ _ hn, hn]
    simp [lookupA]

/-- Looking up another key after ensuring a company. -/
theorem lookupA_ensureCompany_ne (m : List (String × Entity)) (name k : String)
    (h : k ≠ name) : lookupA (ensureCompany m name) k = lookupA m k := by
  unfold ensureCompany
  by_cases hs : (lookupA m name).isSome = true
  · rw [if_pos hs]
  · rw [if_neg hs]
    cases hk : lookupA m k with
    | some e => exact lookupA_append_of_some _ _ _ _ hk
    | none =>
      rw [lookupA_append_of_none _ _ _ hk]
      simp [lookupA, Ne.symm h]

/-- The key list after ensuring a company. -/
theorem ensureCompany_map_fst (m : List (String × Entity)) (name : String) :
    (ensureCompany m name).map (fun p => p.1)
      = if name ∈ m.map (fun p => p.1) then m.map (fun p => p.1)
        else m.map (fun p => p.1) ++ [name] := by
  unfold ensureCompany
  by_cases h : (lookupA m name).isSome = true
  · rw [if_pos h, if_pos ((lookupA_isSome_iff m name).mp h)]
  · rw [if_neg h, if_neg (fun hm => h ((lookupA_isSome_iff m name).mpr hm)), List.map_append]
    rfl

/-- The identifier list after ensuring a company. -/
theorem ensureCompany_map_id (m : List (String × Entity)) (name : String) :
    (ensureCompany m name).map (fun p => p.2.entityId)
      = if name ∈ m.map (fun p => p.1) then m.map (fun p => p.2.entityId)
        else m.map (fun p => p.2.entityId) ++ ["COMPANY_" ++ natStr (m.length + 1)] := by
  unfold ensureCompany
  by_cases h : (lookupA m name).isSome = true
  · rw [if_pos h, if_pos ((lookupA_isSome_iff m name).mp h)]
  · rw [if_neg h, if_neg (fun hm => h ((lookupA_isSome_iff m name).mpr hm)), List.map_append]
    rfl

/-- Looking up the ensured person key. -/
theorem lookupA_ensurePerson_self (m : List (String × Entity)) (name : String) :
    lookupA (ensurePerson m name) name
      = some ((lookupA m name).getD (newPerson (m.length + 1) name)) := by
  unfold ensurePerson
  by_cases hs : (lookupA m name).isSome = true
  · rw [if_pos hs]
    obtain ⟨e, he⟩ := Option.isSome_iff_exists.mp hs
    rw [he]
    rfl
  · rw [if_neg hs]
    have hn : lookupA m name = none := by
      cases hl : lookupA m name
      · rfl
      · rw [hl] at hs
        simp at hs
    rw [lookupA_append_of_none _ _ _ hn, hn]
    simp [lookupA]

/-- Looking up another key after ensuring a person. -/
theorem lookupA_ensurePerson_ne (m : List (String × Entity)) (name k : String)
    (h : k ≠ name) : lookupA (ensurePerson m name) k = lookupA m k := by
  unfold ensurePerson
  by_cases hs : (lookupA m name).isSome = true
  · rw [if_pos hs]
  · rw [if_neg hs]
    cases hk : lookupA m k with
    | some e => exact lookupA_append_of_some _ _ _ _ hk
    | none =>
      rw [lookupA_append_of_none _ _ _ hk]
      simp [lookupA, Ne.symm h]

/-- The key list after ensuring a person. -/
theorem ensurePerson_map_fst (m : List (String × Entity)) (name : String) :
    (ensurePerson m name).map (fun p => p.1)
      = if name ∈ m.map (fun p => p.1) then m.map (fun p => p.1)
        else m.map (fun p => p.1) ++ [name] := by
  unfold ensurePerson
  by_cases h : (lookupA m name).isSome = true
  · rw [if_pos h, if_pos ((lookupA_isSome_iff m name).mp h)]
  · rw [if_neg h, if_neg (fun hm => h ((lookupA_isSome_iff m name).mpr hm)), List.map_append]
    rfl

/-- The identifier list after ensuring a person. -/
theorem ensurePerson_map_id (m : List (String × Entity)) (name : String) :
    (ensurePerson m name).map (fun p => p.2.entityId)
      = if name ∈ m.map (fun p => p.1) then m.map (fun p => p.2.entityId)
        else m.map (fun p => p.2.entityId) ++ ["PERSON_" ++ natStr (m.length + 1)] := by
  unfold ensurePerson
  by_cases h : (lookupA m name).isSome = true
  · rw [if_pos h, if_pos ((lookupA_isSome_iff m name).mp h)]
  · rw [if_neg h, if_neg (fun hm => h ((lookupA_isSome_iff m name).mpr hm)), List.map_append]
    rfl

/-- A blank organisation name leaves the state unchanged (source line 63). -/
theorem stepRow_org_empty (st : PState) (row : Row) (h : orgOf row = "") :
    stepRow st row = st := by
  unfold stepRow
  rw [h]
  simp

/-- The companies after one non-skipped row: ensure the company exists, then
fold the row's attribute columns into it. -/
theorem stepRow_companies (st : PState) (row : Row) (h : ¬ orgOf row = "") :
    (stepRow st row).companies
      = updateA (ensureCompany st.companies (orgOf row)) (orgOf row)
          (fun c => addRowAttrs c row) := by
  unfold stepRow
  rw [if_neg h]
  cases hp : parse_person_field (rowGet row "Phone Number") with
  | none => rfl
  | some t =>
    obtain ⟨pname, role, phone⟩ := t
    dsimp only
    split
    · rfl
    · rfl

/-- The persons are untouched when the phone field does not parse. -/
theorem stepRow_persons_none (st : PState) (row : Row) (h : ¬ orgOf row = "")
    (hp : parse_person_field (rowGet row "Phone Number") = none) :
    (stepRow st row).persons = st.persons := by
  unfold stepRow
  rw [if_neg h, hp]

/-- The relationships and dedup keys are untouched when the phone field does
not parse. -/
theorem stepRow_rels_none (st : PState) (row : Row) (h : ¬ orgOf row = "")
    (hp : parse_person_field (rowGet row "Phone Number") = none) :
    (stepRow st row).relationships = st.relationships
    ∧ (stepRow st row).relation_keys = st.relation_keys := by
  unfold stepRow
  rw [if_neg h, hp]
  exact ⟨rfl, rfl⟩

/-- The persons after one non-skipped row whose phone field parses without a
phone number: the person is merely ensured. -/
theorem stepRow_persons_some_nophone (st : PState) (row : Row) (h : ¬ orgOf row = "")
    (pname : String) (role : Option String)
    (hp : parse_person_field (rowGet row "Phone Number") = some (pname, role, none)) :
    (stepRow st row).persons = ensurePerson st.persons pname := by
  unfold stepRow
  rw [if_neg h, hp]
  dsimp only
  split
  · rfl
  · rfl

/-- The persons after one non-skipped row whose phone field parses with a
phone number: the person is ensured and the phone attribute recorded. -/
theorem stepRow_persons_some_phone (st : PState) (row : Row) (h : ¬ orgOf row = "")
    (pname : String) (role : Option String) (ph : String)
    (hp : parse_person_field (rowGet row "Phone Number") = some (pname, role, some ph)) :
    (stepRow st row).persons
      = updateA (ensurePerson st.persons pname) pname
          (fun p => addAttr p "Phone Number" ph) := by
  unfold stepRow
  rw [if_neg h, hp]
  dsimp only
  split
  · rfl
  · rfl

/-- The relationships and dedup keys after one non-skipped row whose phone
field parses: either the key was seen and nothing is appended, or both the
relationship and its key are appended. -/
theorem stepRow_rels_some (st : PState) (row : Row) (h : ¬ orgOf row = "")
    (pname : String) (role : Option String) (phone : Option String)
    (hp : parse_person_field (rowGet row "Phone Number") = some (pname, role, phone)) :
    (stepKey st row pname role ∈ st.relation_keys
      ∧ (stepRow st row).relationships = st.relationships
      ∧ (stepRow st row).relation_keys = st.relation_keys)
    ∨ (stepKey st row pname role ∉ st.relation_keys
      ∧ (stepRow st row).relationships
          = st.relationships ++ [mkRel (stepPid st pname) (stepCid st row) role]
      ∧ (stepRow st row).relation_keys = st.relation_keys ++ [stepKey st row pname role]) := by
  unfold stepRow
  rw [if_neg h, hp]
  dsimp only
  by_cases hk : stepKey st row pname role ∈ st.relation_keys
  · left
    refine ⟨hk, ?_⟩
    unfold stepKey stepPid stepCid at hk
    rw [if_pos hk]
    exact ⟨rfl, rfl⟩
  · right
    refine ⟨hk, ?_⟩
    unfold stepKey stepPid stepCid at hk
    rw [if_neg hk]
    unfold stepKey stepPid stepCid
    exact ⟨rfl, rfl⟩

/-- The first-seen accumulator preserves duplicate-freeness. -/
theorem seenStep_nodup (acc : List String) (o : Option String) (h : acc.Nodup) :
    (seenStep acc o).Nodup := by
  cases o with
  | none => exact h
  | some n =>
    simp only [seenStep]
    by_cases hm : n ∈ acc
    · rw [if_pos hm]
      exact h
    · rw [if_neg hm]
      simp [List.nodup_append, h, hm]

/-- Membership in the first-seen accumulator. -/
theorem seenStep_mem (acc : List String) (o : Option String) (a : String) :
    a ∈ seenStep acc o ↔ a ∈ acc ∨ o = some a := by
  cases o with
  | none => simp [seenStep]
  | some n =>
    simp only [seenStep]
    by_cases hm : n ∈ acc
    · rw [if_pos hm]
      constructor
      · intro h
        exact Or.inl h
      · rintro (h | h)
        · exact h
        · have : n = a := by injection h
          exact this ▸ hm
    · rw [if_neg hm]
      simp only [List.mem_append, List.mem_singleton, Option.some.injEq]
      constructor
      · rintro (h | h)
        · exact Or.inl h
        · exact Or.inr h.symm
      · rintro (h | h)
        · exact Or.inl h
        · exact Or.inr h.symm

/-- Length of the ensured company dict. -/
theorem ensureCompany_length (m : List (String × Entity)) (name : String) :
    (ensureCompany m name).length
      = if name ∈ m.map (fun p => p.1) then m.length else m.length + 1 := by
  unfold ensureCompany
  by_cases h : (lookupA m name).isSome = true
  · rw [if_pos h, if_pos ((lookupA_isSome_iff m name).mp h)]
  · rw [if_neg h, if_neg (fun hm => h ((lookupA_isSome_iff m name).mpr hm))]
    simp

/-- Length of the ensured person dict. -/
theorem ensurePerson_length (m : List (String × Entity)) (name : String) :
    (ensurePerson m name).length
      = if name ∈ m.map (fun p => p.1) then m.length else m.length + 1 := by
  unfold ensurePerson
  by_cases h : (lookupA m name).isSome = true
  · rw [if_pos h, if_pos ((lookupA_isSome_iff m name).mp h)]
  · rw [if_neg h, if_neg (fun hm => h ((lookupA_isSome_iff m name).mpr hm))]
    simp

/-- Length of an updated dict. -/
theorem updateA_length (m : List (String × Entity)) (k : String) (f : Entity → Entity) :
    (updateA m k f).length = m.length := List.length_map _ _

/-- Identifier projection of an update whose function keeps identifiers. -/
theorem updateA_map_entityId (m : List (String × Entity)) (k : String) (f : Entity → Entity)
    (hf : ∀ e, (f e).entityId = e.entityId) :
    (updateA m k f).map (fun p => p.2.entityId) = m.map (fun p => p.2.entityId) :=
  updateA_map_proj m k f (fun e => e.entityId) hf

/-- The company key list evolves by the first-seen accumulator. -/
theorem stepRow_companies_fst (st : PState) (row : Row) :
    (stepRow st row).companies.map (fun p => p.1)
      = seenStep (st.companies.map (fun p => p.1)) (orgNameOf row) := by
  by_cases h : orgOf row = ""
  · rw [stepRow_org_empty st row h]
    unfold orgNameOf
    rw [if_pos h]
    rfl
  · rw [stepRow_companies st row h, updateA_map_fst, ensureCompany_map_fst]
    unfold orgNameOf
    rw [if_neg h]
    rfl

/-- The person key list evolves by the first-seen accumulator. -/
theorem stepRow_persons_fst (st : PState) (row : Row) :
    (stepRow st row).persons.map (fun p => p.1)
      = seenStep (st.persons.map (fun p => p.1)) (personNameOf row) := by
  by_cases h : orgOf row = ""
  · rw [stepRow_org_empty st row h]
    unfold personNameOf
    rw [if_pos h]
    rfl
  · unfold personNameOf
    rw [if_neg h]
    cases hp : parse_person_field (rowGet row "Phone Number") with
    | none =>
      rw [stepRow_persons_none st row h hp]
      rfl
    | some t =>
      obtain ⟨pname, role, phone⟩ := t
      cases phone with
      | none =>
        rw [stepRow_persons_some_nophone st row h pname role hp, ensurePerson_map_fst]
        rfl
      | some ph =>
        rw [stepRow_persons_some_phone st row h pname role ph hp,
          updateA_map_fst, ensurePerson_map_fst]
        rfl

/-- One row step keeps the positional company identifier invariant. -/
theorem stepRow_cIds (st : PState) (row : Row)
    (hids : st.companies.map (fun p => p.2.entityId) = idsFor "COMPANY_" st.companies.length) :
    (stepRow st row).companies.map (fun p => p.2.entityId)
      = idsFor "COMPANY_" (stepRow st row).companies.length := by
  by_cases h : orgOf row = ""
  · rw [stepRow_org_empty st row h]
    exact hids
  · rw [stepRow_companies st row h,
      updateA_map_entityId _ _ _ (fun e => addRowAttrs_entityId row e),
      updateA_length, ensureCompany_map_id, ensureCompany_length]
    by_cases hm : orgOf row ∈ st.companies.map (fun p => p.1)
    · rw [if_pos hm, if_pos hm]
      exact hids
    · rw [if_neg hm, if_neg hm, hids, idsFor_succ]

/-- One row step keeps the positional person identifier invariant. -/
theorem stepRow_pIds (st : PState) (row : Row)
    (hids : st.persons.map (fun p => p.2.entityId) = idsFor "PERSON_" st.persons.length) :
    (stepRow st row).persons.map (fun p => p.2.entityId)
      = idsFor "PERSON_" (stepRow st row).persons.length := by
  by_cases h : orgOf row = ""
  · rw [stepRow_org_empty st row h]
    exact hids
  · cases hp : parse_person_field (rowGet row "Phone Number") with
    | none =>
      rw [stepRow_persons_none st row h hp]
      exact hids
    | some t =>
      obtain ⟨pname, role, phone⟩ := t
      have base :
          (ensurePerson st.persons pname).map (fun p => p.2.entityId)
            = idsFor "PERSON_" (ensurePerson st.persons pname).length := by
        rw [ensurePerson_map_id, ensurePerson_length]
        by_cases hm : pname ∈ st.persons.map (fun p => p.1)
        · rw [if_pos hm, if_pos hm]
          exact hids
        · rw [if_neg hm, if_neg hm, hids, idsFor_succ]
      cases phone with
      | none =>
        rw [stepRow_persons_some_nophone st row h pname role hp]
        exact base
      | some ph =>
        rw [stepRow_persons_some_phone st row h pname role ph hp,
          updateA_map_entityId (ensurePerson st.persons pname) pname
            (fun p => addAttr p "Phone Number" ph) (fun e => rfl), updateA_length]
        exact base

/-- Any property preserved by one row step holds after the whole fold. -/
theorem foldl_inv {P : PState → Prop} (hstep : ∀ st row, P st → P (stepRow st row))
    (rows : List Row) : ∀ st, P st → P (rows.foldl stepRow st) := by
  induction rows with
  | nil => intro st h; exact h
  | cons r rs IH =>
    intro st h
    exact IH _ (hstep st r h)

/-- Members of an ensured company dict: an old binding or the fresh one. -/
theorem mem_ensureCompany (m : List (String × Entity)) (name : String)
    (p : String × Entity) (hp : p ∈ ensureCompany m name) :
    p ∈ m ∨ p = (name, newCompany (m.length + 1) name) := by
  unfold ensureCompany at hp
  by_cases hs : (lookupA m name).isSome = true
  · rw [if_pos hs] at hp
    exact Or.inl hp
  · rw [if_neg hs] at hp
    rcases List.mem_append.mp hp with h1 | h1
    · exact Or.inl h1
    · right
      simpa using h1

/-- Members of an ensured person dict: an old binding or the fresh one. -/
theorem mem_ensurePerson (m : List (String × Entity)) (name : String)
    (p : String × Entity) (hp : p ∈ ensurePerson m name) :
    p ∈ m ∨ p = (name, newPerson (m.length + 1) name) := by
  unfold ensurePerson at hp
  by_cases hs : (lookupA m name).isSome = true
  · rw [if_pos hs] at hp
    exact Or.inl hp
  · rw [if_neg hs] at hp
    rcases List.mem_append.mp hp with h1 | h1
    · exact Or.inl h1
    · right
      simpa using h1

/-- An ensured dict keeps every old binding. -/
theorem ensure_mono (m : List (String × Entity)) (tail : List (String × Entity))
    (p : String × Entity) (hp : p ∈ m) : p ∈ m ++ tail := List.mem_append_left tail hp

/-- Members of an updated dict arise from old bindings. -/
theorem mem_updateA (m : List (String × Entity)) (k : String) (f : Entity → Entity)
    (p : String × Entity) (hp : p ∈ updateA m k f) :
    ∃ q ∈ m, p = if q.1 = k then (q.1, f q.2) else q := by
  unfold updateA at hp
  obtain ⟨q, hq, hgq⟩ := List.mem_map.mp hp
  exact ⟨q, hq, hgq.symm⟩

/-- An update keeps every old binding's key and identifier. -/
theorem updateA_id_mono (m : List (String × Entity)) (k : String) (f : Entity → Entity)
    (hf : ∀ e, (f e).entityId = e.entityId) (q : String × Entity) (hq : q ∈ m) :
    ∃ p ∈ updateA m k f, p.1 = q.1 ∧ p.2.entityId = q.2.entityId := by
  refine ⟨if q.1 = k then (q.1, f q.2) else q, List.mem_map_of_mem _ hq, ?_⟩
  by_cases hqk : q.1 = k
  · rw [if_pos hqk]
    exact ⟨rfl, hf q.2⟩
  · rw [if_neg hqk]
    exact ⟨rfl, rfl⟩

/-- One row step keeps every old company key and identifier present. -/
theorem stepRow_companies_id_mono (st : PState) (row : Row) (q : String × Entity)
    (hq : q ∈ st.companies) :
    ∃ p ∈ (stepRow st row).companies, p.1 = q.1 ∧ p.2.entityId = q.2.entityId := by
  by_cases h : orgOf row = ""
  · rw [stepRow_org_empty st row h]
    exact ⟨q, hq, rfl, rfl⟩
  · rw [stepRow_companies st row h]
    have hq2 : q ∈ ensureCompany st.companies (orgOf row) := by
      unfold ensureCompany
      by_cases hs : (lookupA st.companies (orgOf row)).isSome = true
      · rw [if_pos hs]
        exact hq
      · rw [if_neg hs]
        exact List.mem_append_left _ hq
    exact updateA_id_mono _ _ _ (fun e => addRowAttrs_entityId row e) q hq2

/-- One row step keeps every old person key and identifier present. -/
theorem stepRow_persons_id_mono (st : PState) (row : Row) (q : String × Entity)
    (hq : q ∈ st.persons) :
    ∃ p ∈ (stepRow st row).persons, p.1 = q.1 ∧ p.2.entityId = q.2.entityId := by
  by_cases h : orgOf row = ""
  · rw [stepRow_org_empty st row h]
    exact ⟨q, hq, rfl, rfl⟩
  · cases hp : parse_person_field (rowGet row "Phone Number") with
    | none =>
      rw [stepRow_persons_none st row h hp]
      exact ⟨q, hq, rfl, rfl⟩
    | some t =>
      obtain ⟨pname, role, phone⟩ := t
      have hq2 : q ∈ ensurePerson st.persons pname := by
        unfold ensurePerson
        by_cases hs : (lookupA st.persons pname).isSome = true
        · rw [if_pos hs]
          exact hq
        · rw [if_neg hs]
          exact List.mem_append_left _ hq
      cases phone with
      | none =>
        rw [stepRow_persons_some_nophone st row h pname role hp]
        exact ⟨q, hq2, rfl, rfl⟩
      | some ph =>
        rw [stepRow_persons_some_phone st row h pname role ph hp]
        exact updateA_id_mono (ensurePerson st.persons pname) pname
          (fun p => addAttr p "Phone Number" ph) (fun e => rfl) q hq2

/-- One row step preserves the canonical-name and type invariant of the
company dict. -/
theorem stepRow_companies_meta (st : PState) (row : Row)
    (hmeta : ∀ p ∈ st.companies, p.2.canonicalName = p.1 ∧ p.2.type = "Company") :
    ∀ p ∈ (stepRow st row).companies, p.2.canonicalName = p.1 ∧ p.2.type = "Company" := by
  by_cases h : orgOf row = ""
  · rw [stepRow_org_empty st row h]
    exact hmeta
  · rw [stepRow_companies st row h]
    intro p hp
    obtain ⟨q, hq, hpq⟩ := mem_updateA _ _ _ p hp
    have hqm : q.2.canonicalName = q.1 ∧ q.2.type = "Company" := by
      rcases mem_ensureCompany _ _ q hq with h1 | h1
      · exact hmeta q h1
      · rw [h1]
        exact ⟨rfl, rfl⟩
    rw [hpq]
    by_cases hqn : q.1 = orgOf row
    · rw [if_pos hqn]
      refine ⟨?_, ?_⟩
      · rw [addRowAttrs_canonicalName]
        exact hqm.1
      · rw [addRowAttrs_type]
        exact hqm.2
    · rw [if_neg hqn]
      exact hqm

/-- One row step preserves the canonical-name and type invariant of the
person dict. -/
theorem stepRow_persons_meta (st : PState) (row : Row)
    (hmeta : ∀ p ∈ st.persons, p.2.canonicalName = p.1 ∧ p.2.type = "Person") :
    ∀ p ∈ (stepRow st row).persons, p.2.canonicalName = p.1 ∧ p.2.type = "Person" := by
  by_cases h : orgOf row = ""
  · rw [stepRow_org_empty st row h]
    exact hmeta
  · cases hp : parse_person_field (rowGet row "Phone Number") with
    | none =>
      rw [stepRow_persons_none st row h hp]
      exact hmeta
    | some t =>
      obtain ⟨pname, role, phone⟩ := t
      have hens : ∀ p ∈ ensurePerson st.persons pname,
          p.2.canonicalName = p.1 ∧ p.2.type = "Person" := by
        intro p hpm
        rcases mem_ensurePerson _ _ p hpm with h1 | h1
        · exact hmeta p h1
        · rw [h1]
          exact ⟨rfl, rfl⟩
      cases phone with
      | none =>
        rw [stepRow_persons_some_nophone st row h pname role hp]
        exact hens
      | some ph =>
        rw [stepRow_persons_some_phone st row h pname role ph hp]
        intro p hpm
        obtain ⟨q, hq, hpq⟩ := mem_updateA _ _ _ p hpm
        have hqm := hens q hq
        rw [hpq]
        by_cases hqn : q.1 = pname
        · rw [if_pos hqn]
          exact hqm
        · rw [if_neg hqn]
          exact hqm

/-- The company key-list trace over the whole fold. -/
theorem foldl_companies_fst (rows : List Row) :
    ∀ st : PState, (rows.foldl stepRow st).companies.map (fun p => p.1)
      = (rows.map orgNameOf).foldl seenStep (st.companies.map (fun p => p.1)) := by
  induction rows with
  | nil => intro st; rfl
  | cons r rs IH =>
    intro st
    rw [List.foldl_cons, List.map_cons, List.foldl_cons, IH (stepRow st r),
      stepRow_companies_fst]

/-- The person key-list trace over the whole fold. -/
theorem foldl_persons_fst (rows : List Row) :
    ∀ st : PState, (rows.foldl stepRow st).persons.map (fun p => p.1)
      = (rows.map personNameOf).foldl seenStep (st.persons.map (fun p => p.1)) := by
  induction rows with
  | nil => intro st; rfl
  | cons r rs IH =>
    intro st
    rw [List.foldl_cons, List.map_cons, List.foldl_cons, IH (stepRow st r),
      stepRow_persons_fst]

/-- The companies of the finished pipeline list the distinct trimmed
organisation names in first-seen order. -/
theorem runRows_companies_fst (rows : List Row) :
    (runRows rows).companies.map (fun p => p.1) = firstSeenList (rows.map orgNameOf) :=
  foldl_companies_fst rows initState

/-- The persons of the finished pipeline list the distinct extracted person
names in first-seen order. -/
theorem runRows_persons_fst (rows : List Row) :
    (runRows rows).persons.map (fun p => p.1) = firstSeenList (rows.map personNameOf) :=
  foldl_persons_fst rows initState

/-- First-seen accumulation keeps the accumulator duplicate-free. -/
theorem foldl_seenStep_nodup (l : List (Option String)) :
    ∀ acc : List String, acc.Nodup → (l.foldl seenStep acc).Nodup := by
  induction l with
  | nil => intro acc h; exact h
  | cons o os IH =>
    intro acc h
    exact IH _ (seenStep_nodup acc o h)

/-- A first-seen list is duplicate-free. -/
theorem firstSeenList_nodup (l : List (Option String)) : (firstSeenList l).Nodup :=
  foldl_seenStep_nodup l [] List.nodup_nil

/-- Membership after first-seen accumulation. -/
theorem foldl_seenStep_mem (l : List (Option String)) :
    ∀ (acc : List String) (a : String),
      a ∈ l.foldl seenStep acc ↔ a ∈ acc ∨ some a ∈ l := by
  induction l with
  | nil => intro acc a; simp
  | cons o os IH =>
    intro acc a
    rw [List.foldl_cons, IH, seenStep_mem, List.mem_cons]
    constructor
    · rintro ((h | h) | h)
      · exact Or.inl h
      · exact Or.inr (Or.inl h.symm)
      · exact Or.inr (Or.inr h)
    · rintro (h | h | h)
      · exact Or.inl (Or.inl h)
      · exact Or.inl (Or.inr h.symm)
      · exact Or.inr h

/-- Membership in a first-seen list. -/
theorem firstSeenList_mem (l : List (Option String)) (a : String) :
    a ∈ firstSeenList l ↔ some a ∈ l := by
  unfold firstSeenList
  rw [foldl_seenStep_mem]
  simp

/-- The finished pipeline's company identifiers are positional. -/
theorem runRows_cIds (rows : List Row) :
    (runRows rows).companies.map (fun p => p.2.entityId)
      = idsFor "COMPANY_" (runRows rows).companies.length :=
  foldl_inv (fun st row h => stepRow_cIds st row h) rows initState rfl

/-- The finished pipeline's person identifiers are positional. -/
theorem runRows_pIds (rows : List Row) :
    (runRows rows).persons.map (fun p => p.2.entityId)
      = idsFor "PERSON_" (runRows rows).persons.length :=
  foldl_inv (fun st row h => stepRow_pIds st row h) rows initState rfl

/-- The finished pipeline's companies carry their key as canonical name and
the Company type. -/
theorem runRows_companies_meta (rows : List Row) :
    ∀ p ∈ (runRows rows).companies, p.2.canonicalName = p.1 ∧ p.2.type = "Company" :=
  foldl_inv (fun st row h => stepRow_companies_meta st row h) rows initState
    (fun p hp => absurd hp (List.not_mem_nil p))

/-- The finished pipeline's persons carry their key as canonical name and
the Person type. -/
theorem runRows_persons_meta (rows : List Row) :
    ∀ p ∈ (runRows rows).persons, p.2.canonicalName = p.1 ∧ p.2.type = "Person" :=
  foldl_inv (fun st row h => stepRow_persons_meta st row h) rows initState
    (fun p hp => absurd hp (List.not_mem_nil p))

/-- C3: entity identifiers have the format `<TYPE_UPPER>_<ordinal>` where the
ordinal is the 1-based position of the entity among the distinct canonical
names of its type in first-seen order (no gaps: position `i` carries ordinal
`i + 1`; no reuse: identifiers and canonical names are duplicate-free), and
there is exactly one entity per distinct canonical name per type. -/
theorem C3_identifiers (rows : List Row) :
    ((runRows rows).companies.map (fun p => p.1) = firstSeenList (rows.map orgNameOf)
      ∧ (runRows rows).persons.map (fun p => p.1) = firstSeenList (rows.map personNameOf))
    ∧ ((runRows rows).companies.map (fun p => p.2.entityId)
          = idsFor "COMPANY_" (runRows rows).companies.length
      ∧ (runRows rows).persons.map (fun p => p.2.entityId)
          = idsFor "PERSON_" (runRows rows).persons.length)
    ∧ (((runRows rows).companies.map (fun p => p.1)).Nodup
      ∧ ((runRows rows).persons.map (fun p => p.1)).Nodup
      ∧ ((runRows rows).companies.map (fun p => p.2.entityId)).Nodup
      ∧ ((runRows rows).persons.map (fun p => p.2.entityId)).Nodup)
    ∧ (∀ p ∈ (runRows rows).companies, p.2.canonicalName = p.1 ∧ p.2.type = "Company")
    ∧ (∀ p ∈ (runRows rows).persons, p.2.canonicalName = p.1 ∧ p.2.type = "Person") := by
  refine ⟨⟨runRows_companies_fst rows, runRows_persons_fst rows⟩,
    ⟨runRows_cIds rows, runRows_pIds rows⟩, ⟨?_, ?_, ?_, ?_⟩,
    runRows_companies_meta rows, runRows_persons_meta rows⟩
  · rw [runRows_companies_fst]
    exact firstSeenList_nodup _
  · rw [runRows_persons_fst]
    exact firstSeenList_nodup _
  · rw [runRows_cIds]
    exact idsFor_nodup _ _
  · rw [runRows_pIds]
    exact idsFor_nodup _ _

/-- Closed instance of C3 on two concrete rows, including one evaluated
member of the canonical-name clause. -/
theorem C3_witness :
    (runRows rowsC3).companies.map (fun p => p.1) = firstSeenList (rowsC3.map orgNameOf)
    ∧ (runRows rowsC3).companies.map (fun p => p.2.entityId)
        = idsFor "COMPANY_" (runRows rowsC3).companies.length
    ∧ (("Acme", newCompany 1 "Acme") : String × Entity).2.canonicalName = "Acme" := by
  refine ⟨(C3_identifiers rowsC3).1.1, (C3_identifiers rowsC3).2.1.1, ?_⟩
  exact ((C3_identifiers rowsC3).2.2.2.1 ("Acme", newCompany 1 "Acme") (by decide)).1

/-- Membership in an attribute mapping with one leading entry. -/
theorem memVal_cons (a : String) (ws : List String) (m : List (String × List String))
    (k v : String) :
    memVal ((a, ws) :: m) k v ↔ (k = a ∧ v ∈ ws) ∨ memVal m k v := by
  unfold memVal
  constructor
  · rintro ⟨vs, hvs, hv⟩
    rcases List.mem_cons.mp hvs with h1 | h1
    · obtain ⟨hk, hw⟩ := Prod.mk.injEq .. ▸ h1
      exact Or.inl ⟨hk, hw ▸ hv⟩
    · exact Or.inr ⟨vs, h1, hv⟩
  · rintro (⟨hk, hv⟩ | ⟨vs, hvs, hv⟩)
    · exact ⟨ws, by rw [hk]; exact List.mem_cons_self _ _, hv⟩
    · exact ⟨vs, List.mem_cons_of_mem _ hvs, hv⟩

/-- Membership after one attribute insertion. -/
theorem memVal_insertVal (m : List (String × List String)) (k2 v2 k v : String) :
    memVal (insertVal m k2 v2) k v ↔ memVal m k v ∨ (k = k2 ∧ v = v2) := by
  induction m with
  | nil =>
    unfold insertVal
    rw [memVal_cons]
    simp [memVal]
  | cons p rest IH =>
    obtain ⟨k0, vs0⟩ := p
    unfold insertVal
    by_cases h0 : k0 = k2
    · rw [if_pos h0, memVal_cons, memVal_cons]
      subst h0
      by_cases hvmem : v2 ∈ vs0
      · rw [if_pos hvmem]
        constructor
        · intro h1
          exact Or.inl h1
        · rintro (h1 | ⟨hk, hv⟩)
          · exact h1
          · exact Or.inl ⟨hk, hv ▸ hvmem⟩
      · rw [if_neg hvmem]
        constructor
        · rintro (⟨hk, hv⟩ | h1)
          · rcases List.mem_append.mp hv with h2 | h2
            · exact Or.inl (Or.inl ⟨hk, h2⟩)
            · exact Or.inr ⟨hk, List.mem_singleton.mp h2⟩
          · exact Or.inl (Or.inr h1)
        · rintro ((⟨hk, hv⟩ | h1) | ⟨hk, hv⟩)
          · exact Or.inl ⟨hk, List.mem_append_left _ hv⟩
          · exact Or.inr h1
          · exact Or.inl ⟨hk, List.mem_append_right _ (hv ▸ List.mem_singleton_self v2)⟩
    · rw [if_neg h0, memVal_cons, memVal_cons, IH]
      constructor
      · rintro (h1 | h1 | h1)
        · exact Or.inl (Or.inl h1)
        · exact Or.inl (Or.inr h1)
        · exact Or.inr h1
      · rintro ((h1 | h1) | h1)
        · exact Or.inl h1
        · exact Or.inr (Or.inl h1)
        · exact Or.inr (Or.inr h1)

/-- Inserting a value makes it present at the key's first entry. -/
theorem memF_insertVal_self (m : List (String × List String)) (k v : String) :
    memF (insertVal m k v) k v := by
  induction m with
  | nil =>
    refine ⟨[v], ?_, by simp⟩
    simp [insertVal, firstVal]
  | cons p rest IH =>
    obtain ⟨k0, vs0⟩ := p
    unfold insertVal
    by_cases h0 : k0 = k
    · rw [if_pos h0]
      refine ⟨if v ∈ vs0 then vs0 else vs0 ++ [v], by simp [firstVal, h0], ?_⟩
      by_cases hv : v ∈ vs0
      · rw [if_pos hv]
        exact hv
      · rw [if_neg hv]
        simp
    · rw [if_neg h0]
      obtain ⟨vs, hvs, hv⟩ := IH
      exact ⟨vs, by simp [firstVal, h0, hvs], hv⟩

/-- Inserting a value already present at the key's first entry is a no-op. -/
theorem insertVal_of_memF (m : List (String × List String)) (k v : String)
    (h : memF m k v) : insertVal m k v = m := by
  induction m with
  | nil =>
    obtain ⟨vs, hvs, _⟩ := h
    exact absurd hvs (by simp [firstVal])
  | cons p rest IH =>
    obtain ⟨k0, vs0⟩ := p
    obtain ⟨vs, hvs, hv⟩ := h
    unfold insertVal
    by_cases h0 : k0 = k
    · rw [if_pos h0]
      have hvv : vs0 = vs := by
        simp only [firstVal, h0, if_true] at hvs
        exact Option.some.injEq _ _ ▸ hvs
      rw [if_pos (hvv ▸ hv)]
    · rw [if_neg h0]
      have htail : firstVal rest k = some vs := by
        rw [show firstVal ((k0, vs0) :: rest) k = if k0 = k then some vs0 else firstVal rest k
          from rfl, if_neg h0] at hvs
        exact hvs
      rw [IH ⟨vs, htail, hv⟩]

/-- Insertion at any key preserves presence at a first entry. -/
theorem memF_insertVal_mono (m : List (String × List String)) (k v k2 v2 : String)
    (h : memF m k v) : memF (insertVal m k2 v2) k v := by
  induction m with
  | nil =>
    obtain ⟨vs, hvs, _⟩ := h
    exact absurd hvs (by simp [firstVal])
  | cons p rest IH =>
    obtain ⟨k0, vs0⟩ := p
    obtain ⟨vs, hvs, hv⟩ := h
    have hvs0 : firstVal ((k0, vs0) :: rest) k
        = if k0 = k then some vs0 else firstVal rest k := rfl
    rw [hvs0] at hvs
    unfold insertVal
    by_cases h0 : k0 = k2
    · rw [if_pos h0]
      by_cases hk : k0 = k
      · rw [if_pos hk] at hvs
        have hveq : vs = vs0 := (Option.some.injEq _ _ ▸ hvs).symm
        refine ⟨if v2 ∈ vs0 then vs0 else vs0 ++ [v2], by simp [firstVal, hk], ?_⟩
        by_cases hv2 : v2 ∈ vs0
        · rw [if_pos hv2]
          exact hveq ▸ hv
        · rw [if_neg hv2]
          exact List.mem_append_left _ (hveq ▸ hv)
      · rw [if_neg hk] at hvs
        exact ⟨vs, by simp [firstVal, hk, hvs], hv⟩
    · rw [if_neg h0]
      by_cases hk : k0 = k
      · rw [if_pos hk] at hvs
        exact ⟨vs, by simp [firstVal, hk, hvs], hv⟩
      · rw [if_neg hk] at hvs
        obtain ⟨vs1, hvs1, hv1⟩ := IH ⟨vs, hvs, hv⟩
        exact ⟨vs1, by simp [firstVal, hk, hvs1], hv1⟩

/-- Attribute membership after `addAttr`. -/
theorem memVal_addAttr (e : Entity) (k2 v2 k v : String) :
    memVal (addAttr e k2 v2).attributes k v
      ↔ memVal e.attributes k v ∨ (k = k2 ∧ v = v2) :=
  memVal_insertVal e.attributes k2 v2 k v

/-- `addAttr` with a value present at its key's first entry is a no-op. -/
theorem addAttr_of_memF (e : Entity) (k v : String) (h : memF e.attributes k v) :
    addAttr e k v = e := by
  unfold addAttr
  rw [insertVal_of_memF e.attributes k v h]

/-- Presence at a first entry survives `addAttr`. -/
theorem memF_addAttr_mono (e : Entity) (k v k2 v2 : String) (h : memF e.attributes k v) :
    memF (addAttr e k2 v2).attributes k v :=
  memF_insertVal_mono e.attributes k v k2 v2 h

/-- Unfolding one column of the attribute loop. -/
theorem addRowAttrs_cons (e : Entity) (kv0 : String × String) (rest : Row) :
    addRowAttrs e (kv0 :: rest)
      = addRowAttrs (if kv0.1 = "Organisation Name" then e
          else if pyStrip kv0.2 = "" then e
          else addAttr e kv0.1 (pyStrip kv0.2)) rest := rfl

/-- Attribute membership after the whole attribute loop: the old values plus
the row's relevant (non-organisation, non-blank, trimmed) pairs. -/
theorem memVal_addRowAttrs (row : Row) : ∀ (e : Entity) (k v : String),
    memVal (addRowAttrs e row).attributes k v
      ↔ memVal e.attributes k v
        ∨ ∃ kv ∈ row, kv.1 = k ∧ kv.1 ≠ "Organisation Name"
            ∧ pyStrip kv.2 = v ∧ v ≠ "" := by
  induction row with
  | nil =>
    intro e k v
    simp [addRowAttrs]
  | cons kv0 rest IH =>
    intro e k v
    rw [addRowAttrs_cons, IH]
    by_cases h1 : kv0.1 = "Organisation Name"
    · rw [if_pos h1]
      constructor
      · rintro (h | h)
        · exact Or.inl h
        · obtain ⟨kv, hkv, hrest⟩ := h
          exact Or.inr ⟨kv, List.mem_cons_of_mem _ hkv, hrest⟩
      · rintro (h | ⟨kv, hkv, hk, hno, hv, hne⟩)
        · exact Or.inl h
        · rcases List.mem_cons.mp hkv with h2 | h2
          · exact absurd (by rw [h2]; exact h1) hno
          · exact Or.inr ⟨kv, h2, hk, hno, hv, hne⟩
    · rw [if_neg h1]
      by_cases h2 : pyStrip kv0.2 = ""
      · rw [if_pos h2]
        constructor
        · rintro (h | h)
          · exact Or.inl h
          · obtain ⟨kv, hkv, hrest⟩ := h
            exact Or.inr ⟨kv, List.mem_cons_of_mem _ hkv, hrest⟩
        · rintro (h | ⟨kv, hkv, hk, hno, hv, hne⟩)
          · exact Or.inl h
          · rcases List.mem_cons.mp hkv with h3 | h3
            · exact absurd (by rw [← hv, h3]; exact h2) hne
            · exact Or.inr ⟨kv, h3, hk, hno, hv, hne⟩
      · rw [if_neg h2, memVal_addAttr]
        constructor
        · rintro ((h | ⟨hk, hv⟩) | h)
          · exact Or.inl h
          · right
            refine ⟨kv0, List.mem_cons_self _ _, hk.symm, h1, hv.symm, ?_⟩
            rw [hv]
            exact h2
          · obtain ⟨kv, hkv, hrest⟩ := h
            exact Or.inr ⟨kv, List.mem_cons_of_mem _ hkv, hrest⟩
        · rintro (h | ⟨kv, hkv, hk, hno, hv, hne⟩)
          · exact Or.inl (Or.inl h)
          · rcases List.mem_cons.mp hkv with h3 | h3
            · refine Or.inl (Or.inr ⟨?_, ?_⟩)
              · rw [← hk, h3]
              · rw [← hv, h3]
            · exact Or.inr ⟨kv, h3, hk, hno, hv, hne⟩

/-- Presence at a first entry survives the attribute loop. -/
theorem memF_addRowAttrs_mono (row : Row) : ∀ (e : Entity) (k v : String),
    memF e.attributes k v → memF (addRowAttrs e row).attributes k v := by
  induction row with
  | nil => intro e k v h; exact h
  | cons kv0 rest IH =>
    intro e k v h
    rw [addRowAttrs_cons]
    apply IH
    by_cases h1 : kv0.1 = "Organisation Name"
    · rw [if_pos h1]
      exact h
    · rw [if_neg h1]
      by_cases h2 : pyStrip kv0.2 = ""
      · rw [if_pos h2]
        exact h
      · rw [if_neg h2]
        exact memF_addAttr_mono e k v _ _ h

/-- After the attribute loop every relevant pair of the row is present. -/
theorem memF_addRowAttrs_self (row : Row) : ∀ (e : Entity), ∀ kv ∈ row,
    kv.1 ≠ "Organisation Name" → ¬ pyStrip kv.2 = "" →
    memF (addRowAttrs e row).attributes kv.1 (pyStrip kv.2) := by
  induction row with
  | nil => intro e kv hkv; exact absurd hkv (List.not_mem_nil kv)
  | cons kv0 rest IH =>
    intro e kv hkv hno hne
    rw [addRowAttrs_cons]
    rcases List.mem_cons.mp hkv with h3 | h3
    · subst h3
      apply memF_addRowAttrs_mono rest
      rw [if_neg hno, if_neg hne]
      exact memF_insertVal_self e.attributes kv.1 (pyStrip kv.2)
    · exact IH _ kv h3 hno hne

/-- Re-running the attribute loop when every relevant pair is already
present is a no-op. -/
theorem addRowAttrs_noop (row : Row) : ∀ e : Entity,
    (∀ kv ∈ row, kv.1 ≠ "Organisation Name" → ¬ pyStrip kv.2 = "" →
      memF e.attributes kv.1 (pyStrip kv.2)) →
    addRowAttrs e row = e := by
  induction row with
  | nil => intro e _; rfl
  | cons kv0 rest IH =>
    intro e h
    rw [addRowAttrs_cons]
    have hg : (if kv0.1 = "Organisation Name" then e
        else if pyStrip kv0.2 = "" then e
        else addAttr e kv0.1 (pyStrip kv0.2)) = e := by
      by_cases h1 : kv0.1 = "Organisation Name"
      · rw [if_pos h1]
      · rw [if_neg h1]
        by_cases h2 : pyStrip kv0.2 = ""
        · rw [if_pos h2]
        · rw [if_neg h2]
          exact addAttr_of_memF e _ _ (h kv0 (List.mem_cons_self _ _) h1 h2)
    rw [hg]
    exact IH e (fun kv hkv => h kv (List.mem_cons_of_mem _ hkv))

/-- The attribute loop is idempotent. -/
theorem addRowAttrs_idem (row : Row) (e : Entity) :
    addRowAttrs (addRowAttrs e row) row = addRowAttrs e row :=
  addRowAttrs_noop row _ (fun kv hkv hno hne => memF_addRowAttrs_self row e kv hkv hno hne)

/-- Adding the same attribute value twice equals adding it once. -/
theorem addAttr_idem (e : Entity) (k v : String) :
    addAttr (addAttr e k v) k v = addAttr e k v :=
  addAttr_of_memF _ _ _ (memF_insertVal_self e.attributes k v)

/-- Updating the same key twice with an idempotent function equals one
update. -/
theorem updateA_updateA (m : List (String × Entity)) (k : String) (f : Entity → Entity)
    (hf : ∀ e, f (f e) = f e) : updateA (updateA m k f) k f = updateA m k f := by
  induction m with
  | nil => rfl
  | cons p rest IH =>
    unfold updateA at IH ⊢
    simp only [List.map_cons]
    rw [IH]
    by_cases hp : p.1 = k
    · rw [if_pos hp]
      have h1 : ((p.1, f p.2) : String × Entity).1 = k := hp
      rw [if_pos h1, hf]
    · rw [if_neg hp, if_neg hp]

/-- Ensuring an already present company key is a no-op. -/
theorem ensureCompany_of_some (m : List (String × Entity)) (name : String)
    (h : (lookupA m name).isSome = true) : ensureCompany m name = m := by
  unfold ensureCompany
  rw [if_pos h]

/-- Ensuring an already present person key is a no-op. -/
theorem ensurePerson_of_some (m : List (String × Entity)) (name : String)
    (h : (lookupA m name).isSome = true) : ensurePerson m name = m := by
  unfold ensurePerson
  rw [if_pos h]

/-- Two pipeline states with equal components are equal. -/
theorem PState.extEq (a b : PState) (h1 : a.companies = b.companies)
    (h2 : a.persons = b.persons) (h3 : a.relationships = b.relationships)
    (h4 : a.relation_keys = b.relation_keys) : a = b := by
  cases a
  cases b
  cases h1
  cases h2
  cases h3
  cases h4
  rfl

/-- The company looked up for a row's relationship: the ensured entity with
the row's attributes folded in. -/
theorem stepCid_lookup (st : PState) (row : Row) :
    lookupA (updateA (ensureCompany st.companies (orgOf row)) (orgOf row)
        (fun c => addRowAttrs c row)) (orgOf row)
      = some (addRowAttrs
          ((lookupA st.companies (orgOf row)).getD
            (newCompany (st.companies.length + 1) (orgOf row))) row) := by
  rw [lookupA_updateA_self, lookupA_ensureCompany_self]
  rfl

/-- Re-processing a row leaves the company dict unchanged. -/
theorem stepRow_companies_idem (st : PState) (row : Row) (h : ¬ orgOf row = "") :
    (stepRow (stepRow st row) row).companies = (stepRow st row).companies := by
  rw [stepRow_companies (stepRow st row) row h, stepRow_companies st row h]
  have hsome : (lookupA (updateA (ensureCompany st.companies (orgOf row)) (orgOf row)
      (fun c => addRowAttrs c row)) (orgOf row)).isSome = true := by
    rw [stepCid_lookup st row]
    rfl
  rw [ensureCompany_of_some _ _ hsome]
  exact updateA_updateA _ _ _ (fun e => addRowAttrs_idem row e)

/-- Re-processing a row leaves the person dict unchanged. -/
theorem stepRow_persons_idem (st : PState) (row : Row) (h : ¬ orgOf row = "")
    (pname : String) (role : Option String) (phone : Option String)
    (hp : parse_person_field (rowGet row "Phone Number") = some (pname, role, phone)) :
    (stepRow (stepRow st row) row).persons = (stepRow st row).persons := by
  cases phone with
  | none =>
    rw [stepRow_persons_some_nophone (stepRow st row) row h pname role hp,
      stepRow_persons_some_nophone st row h pname role hp]
    apply ensurePerson_of_some
    rw [lookupA_ensurePerson_self]
    rfl
  | some ph =>
    rw [stepRow_persons_some_phone (stepRow st row) row h pname role ph hp,
      stepRow_persons_some_phone st row h pname role ph hp]
    have hsome : (lookupA (updateA (ensurePerson st.persons pname) pname
        (fun p => addAttr p "Phone Number" ph)) pname).isSome = true := by
      rw [lookupA_updateA_self, lookupA_ensurePerson_self]
      rfl
    rw [ensurePerson_of_some _ _ hsome]
    exact updateA_updateA _ _ _ (fun e => addAttr_idem e "Phone Number" ph)

/-- Re-processing a row reuses the same person identifier. -/
theorem stepPid_idem (st : PState) (row : Row) (h : ¬ orgOf row = "")
    (pname : String) (role : Option String) (phone : Option String)
    (hp : parse_person_field (rowGet row "Phone Number") = some (pname, role, phone)) :
    stepPid (stepRow st row) pname = stepPid st pname := by
  unfold stepPid
  cases phone with
  | none =>
    rw [stepRow_persons_some_nophone st row h pname role hp]
    rw [ensurePerson_of_some _ _ (by rw [lookupA_ensurePerson_self]; rfl)]
  | some ph =>
    rw [stepRow_persons_some_phone st row h pname role ph hp]
    have hsome : (lookupA (updateA (ensurePerson st.persons pname) pname
        (fun p => addAttr p "Phone Number" ph)) pname).isSome = true := by
      rw [lookupA_updateA_self, lookupA_ensurePerson_self]
      rfl
    rw [ensurePerson_of_some _ _ hsome, lookupA_updateA_self, lookupA_ensurePerson_self]
    rfl

/-- Re-processing a row reuses the same company identifier. -/
theorem stepCid_idem (st : PState) (row : Row) (h : ¬ orgOf row = "") :
    stepCid (stepRow st row) row = stepCid st row := by
  unfold stepCid
  rw [stepRow_companies st row h]
  rw [ensureCompany_of_some _ _ (by rw [stepCid_lookup st row]; rfl)]
  rw [lookupA_updateA_self, stepCid_lookup st row]
  simp only [Option.map_some', Option.getD_some]
  rw [addRowAttrs_idem row]

/-- Re-processing a row computes the same dedup key. -/
theorem stepKey_idem (st : PState) (row : Row) (h : ¬ orgOf row = "")
    (pname : String) (role : Option String) (phone : Option String)
    (hp : parse_person_field (rowGet row "Phone Number") = some (pname, role, phone)) :
    stepKey (stepRow st row) row pname role = stepKey st row pname role := by
  unfold stepKey
  rw [stepPid_idem st row h pname role phone hp, stepCid_idem st row h]

/-- A parsed row's dedup key is recorded in the resulting state. -/
theorem stepKey_mem_after (st : PState) (row : Row) (h : ¬ orgOf row = "")
    (pname : String) (role : Option String) (phone : Option String)
    (hp : parse_person_field (rowGet row "Phone Number") = some (pname, role, phone)) :
    stepKey st row pname role ∈ (stepRow st row).relation_keys := by
  rcases stepRow_rels_some st row h pname role phone hp with ⟨hk, _, hkeys⟩ | ⟨_, _, hkeys⟩
  · rw [hkeys]
    exact hk
  · rw [hkeys]
    exact List.mem_append_right _ (List.mem_singleton_self _)

/-- Processing the same row twice equals processing it once: the second pass
re-adds only attribute values that are already present, finds the person and
company already registered, and finds the dedup key already recorded. -/
theorem stepRow_idem (st : PState) (row : Row) :
    stepRow (stepRow st row) row = stepRow st row := by
  by_cases h : orgOf row = ""
  · exact stepRow_org_empty (stepRow st row) row h
  · cases hp : parse_person_field (rowGet row "Phone Number") with
    | none =>
      apply PState.extEq
      · exact stepRow_companies_idem st row h
      · exact stepRow_persons_none (stepRow st row) row h hp
      · exact (stepRow_rels_none (stepRow st row) row h hp).1
      · exact (stepRow_rels_none (stepRow st row) row h hp).2
    | some t =>
      obtain ⟨pname, role, phone⟩ := t
      have hkey : stepKey (stepRow st row) row pname role
          ∈ (stepRow st row).relation_keys := by
        rw [stepKey_idem st row h pname role phone hp]
        exact stepKey_mem_after st row h pname role phone hp
      apply PState.extEq
      · exact stepRow_companies_idem st row h
      · exact stepRow_persons_idem st row h pname role phone hp
      · rcases stepRow_rels_some (stepRow st row) row h pname role phone hp
          with ⟨_, hre, _⟩ | ⟨hnk, _, _⟩
        · exact hre
        · exact absurd hkey hnk
      · rcases stepRow_rels_some (stepRow st row) row h pname role phone hp
          with ⟨_, _, hke⟩ | ⟨hnk, _, _⟩
        · exact hke
        · exact absurd hkey hnk

/-- The stored relationship determined by a dedup key matches the appended
relationship. -/
theorem mkRel_keyToRel (pid cid : String) (role : Option String) :
    mkRel pid cid role = keyToRel (pid, cid, role.getD "") := by
  cases role with
  | none => rfl
  | some r => rfl

/-- One row step preserves the dedup-key/relationship correspondence. -/
theorem stepRow_relKeys (st : PState) (row : Row)
    (hInv : st.relation_keys.Nodup ∧ st.relationships = st.relation_keys.map keyToRel) :
    (stepRow st row).relation_keys.Nodup
    ∧ (stepRow st row).relationships = (stepRow st row).relation_keys.map keyToRel := by
  obtain ⟨hnd, hmap⟩ := hInv
  by_cases h : orgOf row = ""
  · rw [stepRow_org_empty st row h]
    exact ⟨hnd, hmap⟩
  · cases hp : parse_person_field (rowGet row "Phone Number") with
    | none =>
      obtain ⟨h1, h2⟩ := stepRow_rels_none st row h hp
      rw [h1, h2]
      exact ⟨hnd, hmap⟩
    | some t =>
      obtain ⟨pname, role, phone⟩ := t
      rcases stepRow_rels_some st row h pname role phone hp with ⟨hk, h1, h2⟩ | ⟨hk, h1, h2⟩
      · rw [h1, h2]
        exact ⟨hnd, hmap⟩
      · rw [h1, h2]
        constructor
        · simp [List.nodup_append, hnd, hk]
        · rw [List.map_append, hmap]
          have hsingle : mkRel (stepPid st pname) (stepCid st row) role
              = keyToRel (stepKey st row pname role) := by
            unfold stepKey
            exact mkRel_keyToRel (stepPid st pname) (stepCid st row) role
          rw [hsingle]
          rfl

/-- The finished pipeline's dedup keys are distinct and determine the
relationship list. -/
theorem runRows_relKeys (rows : List Row) :
    (runRows rows).relation_keys.Nodup
    ∧ (runRows rows).relationships = (runRows rows).relation_keys.map keyToRel :=
  foldl_inv (fun st row h => stepRow_relKeys st row h) rows initState ⟨List.nodup_nil, rfl⟩

/-- C1 amended: relationships are deduplicated by the triple (source id,
target id, role-before-lower-casing-or-empty): those keys are pairwise
distinct and determine the stored relationships through `keyToRel`; and
processing identical row content twice yields one relationship: one row
step is idempotent, so a duplicated row adds nothing.  (The stored triples
themselves may coincide when two roles differ only in case.) -/
theorem C1_amended (rows : List Row) :
    ((runRows rows).relation_keys.Nodup
      ∧ (runRows rows).relationships = (runRows rows).relation_keys.map keyToRel)
    ∧ (∀ (st : PState) (row : Row), stepRow (stepRow st row) row = stepRow st row)
    ∧ ∀ (pre : List Row) (row : Row),
        parse_mas_fid (pre ++ [row, row]) = parse_mas_fid (pre ++ [row]) := by
  refine ⟨runRows_relKeys rows, fun st row => stepRow_idem st row, ?_⟩
  intro pre row
  unfold parse_mas_fid
  have hrun : runRows (pre ++ [row, row]) = runRows (pre ++ [row]) := by
    unfold runRows
    rw [List.foldl_append, List.foldl_append]
    simp only [List.foldl_cons, List.foldl_nil]
    exact stepRow_idem _ row
  rw [hrun]

/-- ASCII lower-casing maps only the empty string to the empty string. -/
theorem pyLower_eq_empty_iff (r : String) : pyLower r = "" ↔ r = "" := by
  constructor
  · intro h
    obtain ⟨l⟩ := r
    have hd : l.map pyToLowerChar = ([] : List Char) := congrArg String.data h
    have hl : l = [] := List.map_eq_nil_iff.mp hd
    rw [hl]
  · intro h
    rw [h]
    rfl

/-- The stored role is never the literal empty string. -/
theorem roleStore_ne_some_empty (role : Option String) : roleStore role ≠ some "" := by
  cases role with
  | none => simp [roleStore]
  | some r =>
    simp only [roleStore]
    by_cases hr : r = ""
    · rw [if_pos hr]
      simp
    · rw [if_neg hr]
      intro hc
      have h1 : pyLower r = "" := by injection hc
      exact hr ((pyLower_eq_empty_iff r).mp h1)

/-- Every relationship of a step is an old one or derives its stored role
from the row's parsed contact field. -/
theorem stepRow_rel_provenance (st : PState) (row : Row) :
    ∀ rel ∈ (stepRow st row).relationships,
      rel ∈ st.relationships
      ∨ ∃ pname r phone,
          parse_person_field (rowGet row "Phone Number") = some (pname, r, phone)
          ∧ rel.role = roleStore r := by
  by_cases h : orgOf row = ""
  · rw [stepRow_org_empty st row h]
    exact fun rel hr => Or.inl hr
  · cases hp : parse_person_field (rowGet row "Phone Number") with
    | none =>
      rw [(stepRow_rels_none st row h hp).1]
      exact fun rel hr => Or.inl hr
    | some t =>
      obtain ⟨pname, role, phone⟩ := t
      rcases stepRow_rels_some st row h pname role phone hp with ⟨_, hre, _⟩ | ⟨_, hre, _⟩
      · rw [hre]
        exact fun rel hr => Or.inl hr
      · rw [hre]
        intro rel hr
        rcases List.mem_append.mp hr with h1 | h1
        · exact Or.inl h1
        · right
          refine ⟨pname, role, phone, rfl, ?_⟩
          have he : rel = mkRel (stepPid st pname) (stepCid st row) role :=
            List.mem_singleton.mp h1
          rw [he]
          rfl

/-- Every relationship of the finished pipeline derives its stored role from
some row's parsed contact field. -/
theorem runRows_rel_provenance (rows : List Row) :
    ∀ rel ∈ (runRows rows).relationships,
      ∃ row ∈ rows, ∃ pname r phone,
        parse_person_field (rowGet row "Phone Number") = some (pname, r, phone)
        ∧ rel.role = roleStore r := by
  suffices hgen : ∀ (rs : List Row) (st : PState), ∀ rel ∈ (rs.foldl stepRow st).relationships,
      rel ∈ st.relationships
      ∨ ∃ row ∈ rs, ∃ pname r phone,
          parse_person_field (rowGet row "Phone Number") = some (pname, r, phone)
          ∧ rel.role = roleStore r by
    intro rel hr
    rcases hgen rows initState rel hr with h1 | h1
    · exact absurd h1 (List.not_mem_nil rel)
    · exact h1
  intro rs
  induction rs with
  | nil => intro st rel hr; exact Or.inl hr
  | cons r0 rest IH =>
    intro st rel hr
    rcases IH (stepRow st r0) rel hr with h1 | h1
    · rcases stepRow_rel_provenance st r0 rel h1 with h2 | h2
      · exact Or.inl h2
      · exact Or.inr ⟨r0, List.mem_cons_self _ _, h2⟩
    · obtain ⟨row, hrow, hrest⟩ := h1
      exact Or.inr ⟨row, List.mem_cons_of_mem _ hrow, hrest⟩

/-- C6: in every relationship of the final output the role is either null or
the lower-casing of the role extracted from that row's contact field; a
missing or empty extracted role is stored as null, never as the literal
empty string. -/
theorem C6_role_normalisation (rows : List Row) :
    (∀ rel ∈ (parse_mas_fid rows).2,
        rel.role ≠ some ""
        ∧ ∃ row ∈ rows, ∃ pname r phone,
            parse_person_field (rowGet row "Phone Number") = some (pname, r, phone)
            ∧ rel.role = roleStore r)
    ∧ roleStore none = none
    ∧ roleStore (some "") = none
    ∧ ∀ r : String, r ≠ "" → roleStore (some r) = some (pyLower r) := by
  refine ⟨?_, rfl, rfl, ?_⟩
  · intro rel hr
    have hprov := runRows_rel_provenance rows rel hr
    refine ⟨?_, hprov⟩
    obtain ⟨row, _, pname, r, phone, _, hrole⟩ := hprov
    rw [hrole]
    exact roleStore_ne_some_empty r
  · intro r hr
    simp only [roleStore]
    rw [if_neg hr]

/-- Closed instance of C6 on the concrete two-row input: the appended
relationship stores the lower-cased role and no empty-string role. -/
theorem C6_witness :
    (({ sourceEntityId := "PERSON_1", targetEntityId := "COMPANY_1",
        role := some "ceo", effectiveDate := none } : Relationship).role ≠ some "")
    ∧ roleStore (some "CEO") = some "ceo" := by
  constructor
  · exact ((C6_role_normalisation rowsC1).1 _ (by decide)).1
  · rw [(C6_role_normalisation rowsC1).2.2.2 "CEO" (by decide)]
    decide

/-- The entity list of the output: finalized companies then persons. -/
theorem parse_mas_fid_entities (rows : List Row) :
    (parse_mas_fid rows).1
      = (runRows rows).companies.map (fun p => finalizeEntity p.2)
        ++ (runRows rows).persons.map (fun p => finalizeEntity p.2) := rfl

/-- The relationship list of the output. -/
theorem parse_mas_fid_rels (rows : List Row) :
    (parse_mas_fid rows).2 = (runRows rows).relationships := rfl

/-- The person looked up for a row's relationship is registered with that
identifier after the step. -/
theorem stepPid_mem (st : PState) (row : Row) (h : ¬ orgOf row = "")
    (pname : String) (role : Option String) (phone : Option String)
    (hp : parse_person_field (rowGet row "Phone Number") = some (pname, role, phone)) :
    ∃ p ∈ (stepRow st row).persons, p.2.entityId = stepPid st pname := by
  cases phone with
  | none =>
    rw [stepRow_persons_some_nophone st row h pname role hp]
    refine ⟨(pname, (lookupA st.persons pname).getD (newPerson (st.persons.length + 1) pname)),
      lookupA_mem _ _ _ (lookupA_ensurePerson_self st.persons pname), ?_⟩
    unfold stepPid
    rw [lookupA_ensurePerson_self]
    rfl
  | some ph =>
    rw [stepRow_persons_some_phone st row h pname role ph hp]
    have hl : lookupA (updateA (ensurePerson st.persons pname) pname
        (fun p => addAttr p "Phone Number" ph)) pname
        = some (addAttr ((lookupA st.persons pname).getD
            (newPerson (st.persons.length + 1) pname)) "Phone Number" ph) := by
      rw [lookupA_updateA_self, lookupA_ensurePerson_self]
      rfl
    refine ⟨(pname, addAttr ((lookupA st.persons pname).getD
        (newPerson (st.persons.length + 1) pname)) "Phone Number" ph),
      lookupA_mem _ _ _ hl, ?_⟩
    unfold stepPid
    rw [lookupA_ensurePerson_self]
    rfl

/-- The company looked up for a row's relationship is registered with that
identifier after the step. -/
theorem stepCid_mem (st : PState) (row : Row) (h : ¬ orgOf row = "") :
    ∃ p ∈ (stepRow st row).companies, p.2.entityId = stepCid st row := by
  rw [stepRow_companies st row h]
  refine ⟨(orgOf row, addRowAttrs ((lookupA st.companies (orgOf row)).getD
      (newCompany (st.companies.length + 1) (orgOf row))) row),
    lookupA_mem _ _ _ (stepCid_lookup st row), ?_⟩
  unfold stepCid
  rw [stepCid_lookup st row]
  rfl

/-- One row step preserves referential integrity of the relationships. -/
theorem stepRow_relIntegrity (st : PState) (row : Row)
    (hInv : ∀ rel ∈ st.relationships,
        (∃ p ∈ st.persons, p.2.entityId = rel.sourceEntityId)
        ∧ ∃ p ∈ st.companies, p.2.entityId = rel.targetEntityId) :
    ∀ rel ∈ (stepRow st row).relationships,
      (∃ p ∈ (stepRow st row).persons, p.2.entityId = rel.sourceEntityId)
      ∧ ∃ p ∈ (stepRow st row).companies, p.2.entityId = rel.targetEntityId := by
  have htransP : ∀ rel : Relationship,
      (∃ p ∈ st.persons, p.2.entityId = rel.sourceEntityId) →
      ∃ p ∈ (stepRow st row).persons, p.2.entityId = rel.sourceEntityId := by
    rintro rel ⟨q, hq, hid⟩
    obtain ⟨p, hpm, _, hpid⟩ := stepRow_persons_id_mono st row q hq
    exact ⟨p, hpm, hpid.trans hid⟩
  have htransC : ∀ rel : Relationship,
      (∃ p ∈ st.companies, p.2.entityId = rel.targetEntityId) →
      ∃ p ∈ (stepRow st row).companies, p.2.entityId = rel.targetEntityId := by
    rintro rel ⟨q, hq, hid⟩
    obtain ⟨p, hpm, _, hpid⟩ := stepRow_companies_id_mono st row q hq
    exact ⟨p, hpm, hpid.trans hid⟩
  by_cases h : orgOf row = ""
  · intro rel hr
    rw [stepRow_org_empty st row h] at hr
    exact ⟨htransP rel (hInv rel hr).1, htransC rel (hInv rel hr).2⟩
  · cases hp : parse_person_field (rowGet row "Phone Number") with
    | none =>
      intro rel hr
      rw [(stepRow_rels_none st row h hp).1] at hr
      exact ⟨htransP rel (hInv rel hr).1, htransC rel (hInv rel hr).2⟩
    | some t =>
      obtain ⟨pname, role, phone⟩ := t
      intro rel hr
      rcases stepRow_rels_some st row h pname role phone hp with ⟨_, hre, _⟩ | ⟨_, hre, _⟩
      · rw [hre] at hr
        exact ⟨htransP rel (hInv rel hr).1, htransC rel (hInv rel hr).2⟩
      · rw [hre] at hr
        rcases List.mem_append.mp hr with h1 | h1
        · exact ⟨htransP rel (hInv rel h1).1, htransC rel (hInv rel h1).2⟩
        · have he : rel = mkRel (stepPid st pname) (stepCid st row) role :=
            List.mem_singleton.mp h1
          subst he
          constructor
          · obtain ⟨p, hpm, hid⟩ := stepPid_mem st row h pname role phone hp
            exact ⟨p, hpm, hid⟩
          · obtain ⟨p, hpm, hid⟩ := stepCid_mem st row h
            exact ⟨p, hpm, hid⟩

/-- The finished pipeline's relationships reference registered entities. -/
theorem runRows_relIntegrity (rows : List Row) :
    ∀ rel ∈ (runRows rows).relationships,
      (∃ p ∈ (runRows rows).persons, p.2.entityId = rel.sourceEntityId)
      ∧ ∃ p ∈ (runRows rows).companies, p.2.entityId = rel.targetEntityId :=
  @foldl_inv
    (fun st => ∀ rel ∈ st.relationships,
      (∃ p ∈ st.persons, p.2.entityId = rel.sourceEntityId)
      ∧ ∃ p ∈ st.companies, p.2.entityId = rel.targetEntityId)
    (fun st row hInv => stepRow_relIntegrity st row hInv) rows initState
    (fun rel hr => absurd hr (List.not_mem_nil rel))

/-- C10: every relationship in the output references entities present in the
returned entity sequence: its source is the identifier of a returned Person
entity and its target the identifier of a returned Company entity. -/
theorem C10_referential_integrity (rows : List Row) :
    ∀ rel ∈ (parse_mas_fid rows).2,
      (∃ e ∈ (parse_mas_fid rows).1, e.entityId = rel.sourceEntityId ∧ e.type = "Person")
      ∧ ∃ e ∈ (parse_mas_fid rows).1, e.entityId = rel.targetEntityId ∧ e.type = "Company" := by
  intro rel hr
  rw [parse_mas_fid_rels] at hr
  obtain ⟨⟨p, hp, hpid⟩, ⟨c, hc, hcid⟩⟩ := runRows_relIntegrity rows rel hr
  constructor
  · refine ⟨finalizeEntity p.2, ?_, hpid, (runRows_persons_meta rows p hp).2⟩
    rw [parse_mas_fid_entities]
    exact List.mem_append_right _ (List.mem_map_of_mem _ hp)
  · refine ⟨finalizeEntity c.2, ?_, hcid, (runRows_companies_meta rows c hc).2⟩
    rw [parse_mas_fid_entities]
    exact List.mem_append_left _ (List.mem_map_of_mem _ hc)

/-- Closed instance of C10 on the concrete two-row input. -/
theorem C10_witness :
    (∃ e ∈ (parse_mas_fid rowsC1).1, e.entityId = "PERSON_1" ∧ e.type = "Person")
    ∧ ∃ e ∈ (parse_mas_fid rowsC1).1, e.entityId = "COMPANY_1" ∧ e.type = "Company" :=
  C10_referential_integrity rowsC1
    { sourceEntityId := "PERSON_1", targetEntityId := "COMPANY_1",
      role := some "ceo", effectiveDate := none } (by decide)

/-- Attribute membership in a present entity. -/
theorem memValOpt_some (e : Entity) (k v : String) :
    memValOpt (some e) k v ↔ memVal e.attributes k v := by
  unfold memValOpt
  constructor
  · rintro ⟨e1, he1, hm⟩
    have he : e1 = e := by
      injection he1.symm
    exact he ▸ hm
  · intro hm
    exact ⟨e, rfl, hm⟩

/-- Attribute membership in an absent entity is impossible. -/
theorem memValOpt_none (k v : String) : ¬ memValOpt none k v := by
  rintro ⟨e, he, _⟩
  exact Option.noConfusion he

/-- An empty attribute mapping has no members. -/
theorem memVal_nil (k v : String) : ¬ memVal [] k v := by
  rintro ⟨vs, hvs, _⟩
  exact absurd hvs (List.not_mem_nil _)

/-- Company lookup after one step: a matching non-blank organisation row
folds its attributes into the (possibly fresh) company, any other row leaves
the binding alone. -/
theorem stepRow_lookup_company (st : PState) (row : Row) (name : String) (hn : name ≠ "") :
    lookupA (stepRow st row).companies name
      = if orgOf row = name then
          some (addRowAttrs ((lookupA st.companies name).getD
            (newCompany (st.companies.length + 1) name)) row)
        else lookupA st.companies name := by
  by_cases h : orgOf row = ""
  · rw [stepRow_org_empty st row h, if_neg (by rw [h]; exact fun he => hn he.symm)]
  · rw [stepRow_companies st row h]
    by_cases he : orgOf row = name
    · rw [if_pos he]
      subst he
      exact stepCid_lookup st row
    · rw [if_neg he,
        lookupA_updateA_ne _ _ _ _ (fun hc => he hc.symm),
        lookupA_ensureCompany_ne _ _ _ (fun hc => he hc.symm)]

/-- Attribute membership of the company registered under `name`, across the
whole fold: the initial membership plus the union of all matching rows'
relevant pairs. -/
theorem foldl_company_attrs (name : String) (hn : name ≠ "") (k v : String) :
    ∀ (rs : List Row) (st : PState),
      memValOpt (lookupA (rs.foldl stepRow st).companies name) k v
        ↔ memValOpt (lookupA st.companies name) k v
          ∨ ∃ r ∈ rs, orgOf r = name
              ∧ ∃ kv ∈ r, kv.1 = k ∧ kv.1 ≠ "Organisation Name"
                  ∧ pyStrip kv.2 = v ∧ v ≠ "" := by
  intro rs
  induction rs with
  | nil =>
    intro st
    simp
  | cons r0 rest IH =>
    intro st
    rw [List.foldl_cons, IH (stepRow st r0)]
    have hA : memValOpt (lookupA (stepRow st r0).companies name) k v
        ↔ memValOpt (lookupA st.companies name) k v
          ∨ (orgOf r0 = name ∧ ∃ kv ∈ r0, kv.1 = k ∧ kv.1 ≠ "Organisation Name"
              ∧ pyStrip kv.2 = v ∧ v ≠ "") := by
      rw [stepRow_lookup_company st r0 name hn]
      by_cases hon : orgOf r0 = name
      · rw [if_pos hon, memValOpt_some, memVal_addRowAttrs]
        cases hlk : lookupA st.companies name with
        | none =>
          simp only [Option.getD_none]
          constructor
          · rintro (h | h)
            · exact absurd h (memVal_nil k v)
            · exact Or.inr ⟨hon, h⟩
          · rintro (h | ⟨_, h⟩)
            · exact absurd h (memValOpt_none k v)
            · exact Or.inr h
        | some e =>
          simp only [Option.getD_some]
          rw [memValOpt_some]
          constructor
          · rintro (h | h)
            · exact Or.inl h
            · exact Or.inr ⟨hon, h⟩
          · rintro (h | ⟨_, h⟩)
            · exact Or.inl h
            · exact Or.inr h
      · rw [if_neg hon]
        constructor
        · intro h1
          exact Or.inl h1
        · rintro (h1 | ⟨hc, _⟩)
          · exact h1
          · exact absurd hc hon
    rw [hA]
    constructor
    · rintro ((h | ⟨hon, hpair⟩) | h)
      · exact Or.inl h
      · exact Or.inr ⟨r0, List.mem_cons_self _ _, hon, hpair⟩
      · obtain ⟨r, hrm, hr⟩ := h
        exact Or.inr ⟨r, List.mem_cons_of_mem _ hrm, hr⟩
    · rintro (h | ⟨r, hrm, hon, hpair⟩)
      · exact Or.inl (Or.inl h)
      · rcases List.mem_cons.mp hrm with h2 | h2
        · exact Or.inl (Or.inr ⟨h2 ▸ hon, h2 ▸ hpair⟩)
        · exact Or.inr ⟨r, h2, hon, hpair⟩

/-- The organisation name of a row determines its contributed company name. -/
theorem orgNameOf_eq_some (row : Row) (name : String) (hn : name ≠ "") :
    orgNameOf row = some name ↔ orgOf row = name := by
  unfold orgNameOf
  by_cases h : orgOf row = ""
  · rw [if_pos h]
    constructor
    · intro hc
      exact Option.noConfusion hc
    · intro hc
      exact absurd (hc ▸ h) hn
  · rw [if_neg h]
    constructor
    · intro hc
      injection hc
    · intro hc
      rw [hc]

/-- Exactly one company is registered per organisation name that occurs. -/
theorem runRows_company_count (rows : List Row) (name : String) (hn : name ≠ "") :
    ((runRows rows).companies.map (fun p => p.1)).count name
      = if rows.any (fun r => orgOf r = name) then 1 else 0 := by
  rw [runRows_companies_fst]
  have hmem : name ∈ firstSeenList (rows.map orgNameOf)
      ↔ rows.any (fun r => orgOf r = name) = true := by
    rw [firstSeenList_mem, List.mem_map, List.any_eq_true]
    constructor
    · rintro ⟨r, hr, ho⟩
      refine ⟨r, hr, ?_⟩
      exact decide_eq_true ((orgNameOf_eq_some r name hn).mp ho)
    · rintro ⟨r, hr, ho⟩
      exact ⟨r, hr, (orgNameOf_eq_some r name hn).mpr (of_decide_eq_true ho)⟩
  by_cases hm : name ∈ firstSeenList (rows.map orgNameOf)
  · rw [if_pos (hmem.mp hm)]
    exact List.count_eq_one_of_mem (firstSeenList_nodup _) hm
  · rw [if_neg (fun ha => hm (hmem.mpr ha))]
    exact List.count_eq_zero_of_not_mem hm

/-- Insertion keeps every attribute value set non-empty and duplicate-free. -/
theorem insertVal_wf (m : List (String × List String)) (k v : String)
    (hm : ∀ kv ∈ m, kv.2 ≠ [] ∧ kv.2.Nodup) :
    ∀ kv ∈ insertVal m k v, kv.2 ≠ [] ∧ kv.2.Nodup := by
  induction m with
  | nil =>
    intro kv hkv
    have h1 : kv = (k, [v]) := List.mem_singleton.mp hkv
    rw [h1]
    exact ⟨by simp, List.nodup_singleton v⟩
  | cons p rest IH =>
    obtain ⟨k0, vs0⟩ := p
    intro kv hkv
    unfold insertVal at hkv
    by_cases h0 : k0 = k
    · rw [if_pos h0] at hkv
      rcases List.mem_cons.mp hkv with h1 | h1
      · rw [h1]
        have hbase := hm (k0, vs0) (List.mem_cons_self _ _)
        by_cases hv : v ∈ vs0
        · dsimp only
          rw [if_pos hv]
          exact hbase
        · dsimp only
          rw [if_neg hv]
          refine ⟨by simp, ?_⟩
          rw [List.nodup_append]
          exact ⟨hbase.2, List.nodup_singleton v, by simp [hv]⟩
      · exact hm kv (List.mem_cons_of_mem _ h1)
    · rw [if_neg h0] at hkv
      rcases List.mem_cons.mp hkv with h1 | h1
      · rw [h1]
        exact hm (k0, vs0) (List.mem_cons_self _ _)
      · exact IH (fun kv2 hkv2 => hm kv2 (List.mem_cons_of_mem _ hkv2)) kv h1

/-- The attribute loop keeps every value set non-empty and duplicate-free. -/
theorem addRowAttrs_wf (row : Row) : ∀ e : Entity,
    (∀ kv ∈ e.attributes, kv.2 ≠ [] ∧ kv.2.Nodup) →
    ∀ kv ∈ (addRowAttrs e row).attributes, kv.2 ≠ [] ∧ kv.2.Nodup := by
  induction row with
  | nil => intro e h; exact h
  | cons kv0 rest IH =>
    intro e h
    rw [addRowAttrs_cons]
    apply IH
    by_cases h1 : kv0.1 = "Organisation Name"
    · rw [if_pos h1]
      exact h
    · rw [if_neg h1]
      by_cases h2 : pyStrip kv0.2 = ""
      · rw [if_pos h2]
        exact h
      · rw [if_neg h2]
        exact insertVal_wf e.attributes _ _ h

/-- One row step keeps every company's attribute sets non-empty and
duplicate-free. -/
theorem stepRow_attrs_wf (st : PState) (row : Row)
    (hInv : ∀ p ∈ st.companies, ∀ kv ∈ p.2.attributes, kv.2 ≠ [] ∧ kv.2.Nodup) :
    ∀ p ∈ (stepRow st row).companies, ∀ kv ∈ p.2.attributes, kv.2 ≠ [] ∧ kv.2.Nodup := by
  by_cases h : orgOf row = ""
  · rw [stepRow_org_empty st row h]
    exact hInv
  · rw [stepRow_companies st row h]
    intro p hp
    obtain ⟨q, hq, hpq⟩ := mem_updateA _ _ _ p hp
    have hqwf : ∀ kv ∈ q.2.attributes, kv.2 ≠ [] ∧ kv.2.Nodup := by
      rcases mem_ensureCompany _ _ q hq with h1 | h1
      · exact hInv q h1
      · rw [h1]
        intro kv hkv
        exact absurd hkv (List.not_mem_nil kv)
    rw [hpq]
    by_cases hqn : q.1 = orgOf row
    · rw [if_pos hqn]
      exact addRowAttrs_wf row q.2 hqwf
    · rw [if_neg hqn]
      exact hqwf

/-- The finished pipeline's companies have well-formed attribute sets. -/
theorem runRows_attrs_wf (rows : List Row) :
    ∀ p ∈ (runRows rows).companies, ∀ kv ∈ p.2.attributes, kv.2 ≠ [] ∧ kv.2.Nodup :=
  @foldl_inv
    (fun st => ∀ p ∈ st.companies, ∀ kv ∈ p.2.attributes, kv.2 ≠ [] ∧ kv.2.Nodup)
    (fun st row hInv => stepRow_attrs_wf st row hInv) rows initState
    (fun p hp => absurd hp (List.not_mem_nil p))

/-- One comparison step of the lexicographic ordering. -/
theorem lexLe_cons_iff (x y : Char) (xs ys : List Char) :
    lexLe (x :: xs) (y :: ys) = true ↔ x < y ∨ (x = y ∧ lexLe xs ys = true) := by
  simp only [lexLe]
  rcases lt_trichotomy x y with h | h | h
  · rw [if_pos h]
    simp [h]
  · subst h
    rw [if_neg (lt_irrefl x), if_neg (lt_irrefl x)]
    simp [lt_irrefl]
  · rw [if_neg (lt_asymm h), if_pos h]
    constructor
    · intro hc
      exact Bool.noConfusion hc
    · rintro (hc | ⟨hc, _⟩)
      · exact absurd hc (lt_asymm h)
      · exact absurd hc (ne_of_gt h)

/-- The lexicographic ordering is total. -/
theorem lexLe_total (a b : List Char) : lexLe a b = true ∨ lexLe b a = true := by
  induction a generalizing b with
  | nil => exact Or.inl rfl
  | cons x xs IH =>
    cases b with
    | nil => exact Or.inr rfl
    | cons y ys =>
      rcases lt_trichotomy x y with h | h | h
      · exact Or.inl ((lexLe_cons_iff x y xs ys).mpr (Or.inl h))
      · subst h
        rcases IH ys with h1 | h1
        · exact Or.inl ((lexLe_cons_iff x x xs ys).mpr (Or.inr ⟨rfl, h1⟩))
        · exact Or.inr ((lexLe_cons_iff x x ys xs).mpr (Or.inr ⟨rfl, h1⟩))
      · exact Or.inr ((lexLe_cons_iff y x ys xs).mpr (Or.inl h))

/-- The lexicographic ordering is transitive. -/
theorem lexLe_trans (a : List Char) : ∀ b c : List Char,
    lexLe a b = true → lexLe b c = true → lexLe a c = true := by
  induction a with
  | nil => intro b c h1 h2; rfl
  | cons x xs IH =>
    intro b c h1 h2
    cases b with
    | nil => exact absurd h1 (by simp [lexLe])
    | cons y ys =>
      cases c with
      | nil => exact absurd h2 (by simp [lexLe])
      | cons z zs =>
        rcases (lexLe_cons_iff x y xs ys).mp h1 with hxy | ⟨hxy, hxs⟩
        · rcases (lexLe_cons_iff y z ys zs).mp h2 with hyz | ⟨hyz, _⟩
          · exact (lexLe_cons_iff x z xs zs).mpr (Or.inl (lt_trans hxy hyz))
          · exact (lexLe_cons_iff x z xs zs).mpr (Or.inl (by rw [← hyz]; exact hxy))
        · rcases (lexLe_cons_iff y z ys zs).mp h2 with hyz | ⟨hyz, hys⟩
          · exact (lexLe_cons_iff x z xs zs).mpr (Or.inl (by rw [hxy]; exact hyz))
          · exact (lexLe_cons_iff x z xs zs).mpr (Or.inr ⟨hxy.trans hyz, IH ys zs hxs hys⟩)

/-- Sorted insertion is a permutation of pushing in front. -/
theorem insertSorted_perm (s : String) (l : List String) :
    List.Perm (insertSorted s l) (s :: l) := by
  induction l with
  | nil => exact List.Perm.refl _
  | cons t ts IH =>
    unfold insertSorted
    by_cases h : lexLe s.data t.data = true
    · rw [if_pos h]
    · rw [if_neg h]
      exact (List.Perm.cons t IH).trans (List.Perm.swap s t ts)

/-- Membership after sorted insertion. -/
theorem insertSorted_mem (s : String) (l : List String) (x : String) :
    x ∈ insertSorted s l ↔ x = s ∨ x ∈ l := by
  rw [(insertSorted_perm s l).mem_iff, List.mem_cons]

/-- Sorted insertion preserves sortedness. -/
theorem insertSorted_sorted (s : String) (l : List String) (hl : List.Pairwise sLe l) :
    List.Pairwise sLe (insertSorted s l) := by
  induction l with
  | nil => simp [insertSorted]
  | cons t ts IH =>
    obtain ⟨hhead, htail⟩ := List.pairwise_cons.mp hl
    unfold insertSorted
    by_cases h : lexLe s.data t.data = true
    · rw [if_pos h]
      refine List.pairwise_cons.mpr ⟨?_, hl⟩
      intro b hb
      rcases List.mem_cons.mp hb with h1 | h1
      · rw [h1]
        exact h
      · exact lexLe_trans s.data t.data b.data h (hhead b h1)
    · rw [if_neg h]
      refine List.pairwise_cons.mpr ⟨?_, IH htail⟩
      intro b hb
      rcases (insertSorted_mem s ts b).mp hb with h1 | h1
      · rw [h1]
        rcases lexLe_total s.data t.data with h2 | h2
        · exact absurd h2 h
        · exact h2
      · exact hhead b h1

/-- Sorting permutes the input. -/
theorem sortStrs_perm (l : List String) : List.Perm (sortStrs l) l := by
  induction l with
  | nil => exact List.Perm.refl _
  | cons s ss IH =>
    unfold sortStrs
    exact (insertSorted_perm s (sortStrs ss)).trans (List.Perm.cons s IH)

/-- Sorting sorts. -/
theorem sortStrs_sorted (l : List String) : List.Pairwise sLe (sortStrs l) := by
  induction l with
  | nil => simp [sortStrs]
  | cons s ss IH =>
    unfold sortStrs
    exact insertSorted_sorted s (sortStrs ss) IH

/-- Sorting a duplicate-free list stays duplicate-free. -/
theorem sortStrs_nodup (l : List String) (h : l.Nodup) : (sortStrs l).Nodup :=
  (sortStrs_perm l).nodup_iff.mpr h

/-- Sorting keeps exactly the input's elements. -/
theorem sortStrs_mem (l : List String) (v : String) : v ∈ sortStrs l ↔ v ∈ l :=
  (sortStrs_perm l).mem_iff

/-- A singleton value set finalizes to its bare scalar. -/
theorem finalizeVal_single (v : String) : finalizeVal [v] = AttrVal.scalar v := rfl

/-- A multi-valued set finalizes to the sorted sequence. -/
theorem finalizeVal_multi (vs : List String) (h : 2 ≤ vs.length) :
    finalizeVal vs = AttrVal.multi (sortStrs vs) := by
  match vs with
  | [] => exact absurd h (by simp)
  | [v] => exact absurd h (by simp)
  | v1 :: v2 :: rest => rfl

/-- C2: for every set of rows sharing one trimmed organisation name exactly
one Company entity is produced; its attributes are, per non-organisation
column, the union of the distinct non-empty trimmed values of those rows;
and after finalize a single-valued attribute is a bare scalar while a
multi-valued one is a lexicographically sorted duplicate-free sequence of
exactly the accumulated values. -/
theorem C2_company_attributes (rows : List Row) (name : String) (hn : name ≠ "") :
    (((runRows rows).companies.map (fun p => p.1)).count name
        = if rows.any (fun r => orgOf r = name) then 1 else 0)
    ∧ (∀ k v : String,
        memValOpt (lookupA (runRows rows).companies name) k v
          ↔ ∃ r ∈ rows, orgOf r = name
              ∧ ∃ kv ∈ r, kv.1 = k ∧ kv.1 ≠ "Organisation Name"
                  ∧ pyStrip kv.2 = v ∧ v ≠ "")
    ∧ (∀ p ∈ (runRows rows).companies, ∀ kv ∈ p.2.attributes, kv.2 ≠ [] ∧ kv.2.Nodup)
    ∧ (parse_mas_fid rows).1
        = (runRows rows).companies.map (fun p => finalizeEntity p.2)
          ++ (runRows rows).persons.map (fun p => finalizeEntity p.2)
    ∧ (∀ v : String, finalizeVal [v] = AttrVal.scalar v)
    ∧ (∀ vs : List String, vs.Nodup → 2 ≤ vs.length →
        finalizeVal vs = AttrVal.multi (sortStrs vs)
        ∧ List.Pairwise sLe (sortStrs vs) ∧ (sortStrs vs).Nodup
        ∧ ∀ v, (v ∈ sortStrs vs ↔ v ∈ vs)) := by
  refine ⟨runRows_company_count rows name hn, ?_, runRows_attrs_wf rows,
    parse_mas_fid_entities rows, fun v => finalizeVal_single v, ?_⟩
  · intro k v
    unfold runRows
    rw [foldl_company_attrs name hn k v rows initState]
    constructor
    · rintro (h1 | h1)
      · exact absurd h1 (memValOpt_none k v)
      · exact h1
    · intro h1
      exact Or.inr h1
  · intro vs hnd hlen
    exact ⟨finalizeVal_multi vs hlen, sortStrs_sorted vs, sortStrs_nodup vs hnd,
      fun v => sortStrs_mem vs v⟩

/-- Closed instance of C2 on the concrete two-row input: one company, the
phone column's two distinct raw values accumulated, and a concrete sort. -/
theorem C2_witness :
    ((runRows rowsC1).companies.map (fun p => p.1)).count "Acme" = 1
    ∧ finalizeVal ["b", "a"] = AttrVal.multi (sortStrs ["b", "a"])
    ∧ sortStrs ["b", "a"] = ["a", "b"]
    ∧ memValOpt (lookupA (runRows rowsC1).companies "Acme") "Phone Number"
        "John (CEO) -123" := by
  refine ⟨?_, ?_, by decide, ?_⟩
  · rw [(C2_company_attributes rowsC1 "Acme" (by decide)).1, if_pos (by decide)]
  · exact ((C2_company_attributes rowsC1 "Acme" (by decide)).2.2.2.2.2 ["b", "a"]
      (by decide) (by decide)).1
  · refine ((C2_company_attributes rowsC1 "Acme" (by decide)).2.1 "Phone Number"
      "John (CEO) -123").mpr ?_
    exact ⟨[("Organisation Name", "Acme"), ("Phone Number", "John (CEO) -123")],
      by decide, by decide,
      ("Phone Number", "John (CEO) -123"), by decide, by decide, by decide, by decide,
      by decide⟩

/-- Closed instance of C8: the year 2025 is the first four-digit run of the
reference filename, and changing the filename leaves the entities unchanged. -/
theorem C8_witness :
    (build_output "MAS_FID_2025-06-19.xls" []).entities
        = (build_output "other.xls" []).entities
    ∧ ∃ i, fourDigitsAt ("MAS_FID_2025-06-19.xls" : String).data i
        ∧ 2025 = runVal ("MAS_FID_2025-06-19.xls" : String).data i
        ∧ ∀ j, j < i → ¬ fourDigitsAt ("MAS_FID_2025-06-19.xls" : String).data j := by
  refine ⟨(C8_report_year.1 _ _ _).1, C8_report_year.2.2 "MAS_FID_2025-06-19.xls" 2025 (by decide)⟩

end MasFid
